import Mathlib

/-!
Verification development for the Bobtail sub-block assembler and the SLP token
overlay of BitcoinUnlimited (files `src/bobtail/subblock_miner.cpp`,
`src/slptokens/slpvalidation.cpp`, `src/slptokens/slpdb.cpp`).

The C++ code is shallowly embedded: machine integers become `Nat`/`Int` with
explicit `% 2^w` where wrap-around matters, scripts and hashes become lists of
bytes / numeric surrogates, and external collaborators (mempool indices, the
respend oracle, the wall clock, LevelDB) become explicit parameters of the
embedded functions.
-/

/-- Unsigned 64-bit subtraction `a - b` as C++ computes it on `size_t`/`uint64_t`
operands: the result wraps modulo `2^64` when `b > a`.  Faithful for every
`b < 2^64`, which holds for all C++ operands of that type. -/
def usub64 (a b : Nat) : Nat := (2 ^ 64 + a - b) % 2 ^ 64

/-- Insert `x` into a list sorted in ascending order of `key`. -/
def insertByKey {α : Type} (key : α → Nat) (x : α) : List α → List α
  | [] => [x]
  | y :: ys => if key x ≤ key y then x :: y :: ys else y :: insertByKey key x ys

/-- Insertion sort in ascending order of `key`.  Embeds both the
`NumericallyLessTxHashComparator` sort of `CreateNewSubBlock` (line 253) and the
tx-hash iteration order of a `CTxMemPool::setEntries`. -/
def sortByKey {α : Type} (key : α → Nat) : List α → List α
  | [] => []
  | x :: xs => insertByKey key x (sortByKey key xs)

/-! ## Proof-base construction (`SubBlockAssembler::proofbaseTx`, lines 131-185)

Outpoints and inputs.  `COutPoint` itself lives in `primitives/transaction.h`,
which is not part of the embedded sources; its null state is modelled below. -/

/-- Modelled from the spec: `COutPoint::SetNull` (`primitives/transaction.h`,
not under the embedded sources) resets an outpoint to the null sentinel
`(hash = 0, n = 0xFFFFFFFF)`; the default constructor produces the same state.
The spec confirms that the null index differs from `0`: the appended null
input's index is overwritten to `0` "solely so the two inputs' outpoints are
not identical" (§4.2), which would be vacuous if the null index were already
`0`; the code comment at `subblock_miner.cpp:145-147` says the same. -/
def COUTPOINT_NULL_INDEX : Nat := 2 ^ 32 - 1

structure COutPoint where
  hash : Nat
  n : Nat
  deriving DecidableEq, Repr

/-- The null outpoint produced by `COutPoint::SetNull` / the default ctor. -/
def nullOutPoint : COutPoint := { hash := 0, n := COUTPOINT_NULL_INDEX }

structure CTxIn where
  prevout : COutPoint
  scriptSig : List Nat
  deriving DecidableEq, Repr

/-- Input list built by `proofbaseTx` (`subblock_miner.cpp:136-158`): `vin[0]`
is a synthetic input with a null outpoint carrying the miner script; if the
ancestor (DAG tip) list is empty one extra input with outpoint `(0, 0)` is
appended, otherwise one input per tip whose outpoint hash is the tip hash and
whose index `n` is never assigned, hence stays at the null sentinel. -/
def proofbaseVin (scriptPubKeyIn : List Nat) (ancestorHashes : List Nat) : List CTxIn :=
  let vin0 : CTxIn := { prevout := nullOutPoint, scriptSig := scriptPubKeyIn }
  if ancestorHashes.isEmpty then
    [vin0, { prevout := { hash := 0, n := 0 }, scriptSig := [] }]
  else
    vin0 :: ancestorHashes.map (fun h => { prevout := { hash := h, n := COUTPOINT_NULL_INDEX }, scriptSig := [] })

/-- Modelled from the spec: `MAX_COINBASE_SCRIPTSIG_SIZE` (`policy/policy.h`,
not under the embedded sources), the upper bound on a coinbase `scriptSig`;
its value is 100 bytes. -/
def MAX_COINBASE_SCRIPTSIG_SIZE : Nat := 100

/-- `std::vector::resize` / `CScript::resize` semantics: truncate to `newLen`
when shrinking, extend with zero bytes when growing. -/
def cppResize (l : List Nat) (newLen : Nat) : List Nat :=
  if newLen ≤ l.length then l.take newLen else l ++ List.replicate (newLen - l.length) 0

/-- The `COINBASE_FLAGS` truncation and concatenation of `proofbaseTx`
(`subblock_miner.cpp:169-174`): if `scriptSig.size() + flags.size()` exceeds
`MAX_COINBASE_SCRIPTSIG_SIZE`, the flags are resized to
`MAX_COINBASE_SCRIPTSIG_SIZE - scriptSig.size()` computed in unsigned (`size_t`)
arithmetic, then appended to the scriptSig. -/
def applyCoinbaseFlags (scriptSig flags : List Nat) : List Nat :=
  if scriptSig.length + flags.length > MAX_COINBASE_SCRIPTSIG_SIZE then
    scriptSig ++ cppResize flags (usub64 MAX_COINBASE_SCRIPTSIG_SIZE scriptSig.length)
  else
    scriptSig ++ flags

/-! ## Assembler construction (`SubBlockAssembler::SubBlockAssembler`, lines 68-83) -/

/-- Modelled from the spec: `MAX_BLOCK_SIZE` (`consensus/consensus.h`, not under
the embedded sources), the consensus maximum serialized block size; 32 MB here.
Only the constant's name is needed to state the clamping claim; the code under
test never reads it (the clamp is commented out). -/
def MAX_BLOCK_SIZE : Nat := 32000000

/-- `nBlockMaxSize` as set by the constructor (`subblock_miner.cpp:73`): the
configured `maxGeneratedBlock`, unchanged.  The `[1000, MAX_BLOCK_SIZE-1000]`
clamp appears only inside a comment (lines 76-77). -/
def subBlockAssemblerMaxSize (maxGeneratedBlock : Nat) : Nat := maxGeneratedBlock

/-- `nBlockMinSize` as set by the constructor (`subblock_miner.cpp:81-82`): the
configured `-blockminsize`, clamped to at most `nBlockMaxSize`. -/
def subBlockAssemblerMinSize (maxGeneratedBlock blockMinSizeArg : Nat) : Nat :=
  min (subBlockAssemblerMaxSize maxGeneratedBlock) blockMinSizeArg

/-! ## Mempool model

A mempool entry exposes exactly the observations the assembler reads
(`CTxMemPoolEntry` accessors and the ancestor summary).  Tx hashes are numeric
surrogates (`id`); `parents` holds the ids returned by
`mempool.GetMemPoolParents`, i.e. the in-mempool parents.  The three mempool
orderings are recovered by sorting on the score fields. -/

structure MemEntry where
  id : Nat
  size : Nat
  fee : Int
  sigOps : Nat
  parents : List Nat
  priorityKey : Int
  scoreKey : Int
  ancestorScoreKey : Int
  sizeWithAncestors : Nat
  modFeesWithAncestors : Int
  sigOpsWithAncestors : Nat
  countWithAncestors : Nat
  deriving DecidableEq, Repr

/-- External collaborators and configuration read by the selection phase:
consensus flags, the tweaks, `GetMaxBlockSigOpsCount`, `::minRelayTxFee.GetFee`,
`IsFinalTx`, the one-second age check of `TestForBlock` (`txRecent e` is true
when `GetTimeMicros()` is within 1s of the entry's arrival) and the respend
oracle (`likelyRespent e` is true when some input of `e` is flagged). -/
structure MinerEnv where
  nBlockMaxSize : Nat
  nBlockMinSize : Nat
  blockPrioritySize : Nat
  reservedSize : Nat
  nov2018 : Bool
  may2020 : Bool
  miningCPFP : Bool
  maxSigChecks : Nat
  getMaxBlockSigOpsCount : Nat → Nat
  minRelayGetFee : Nat → Int
  isFinalTx : Nat → Bool
  txRecent : Nat → Bool
  likelyRespent : Nat → Bool
  allowFree : Int → Bool

/-- Running assembler state (`SubBlockAssembler` fields mutated during
selection, plus the `vtxe` output vector threaded through the selectors). -/
structure BlkState where
  inBlock : List Nat
  vtxe : List MemEntry
  nBlockSize : Nat
  nBlockTx : Nat
  nBlockSigOps : Nat
  nFees : Int
  lastFewTxs : Nat
  blockFinished : Bool
  deriving DecidableEq, Repr

/-- `resetBlock` (`subblock_miner.cpp:85-98`): clear `inBlock`, charge the
reserved header+proofbase size (`reserveBlockSize`, an external serialized-size
computation carried in the environment), reserve 100 sigops. -/
def initState (env : MinerEnv) : BlkState :=
  { inBlock := [], vtxe := [], nBlockSize := env.reservedSize, nBlockTx := 0,
    nBlockSigOps := 100, nFees := 0, lastFewTxs := 0, blockFinished := false }

/-- `AddToBlock` (`subblock_miner.cpp:428-461`): push the entry on the output
vector, accumulate size / count / sigops / fee, insert into `inBlock`. -/
def addToBlock (st : BlkState) (e : MemEntry) : BlkState :=
  { st with
    vtxe := st.vtxe ++ [e], nBlockSize := st.nBlockSize + e.size,
    nBlockTx := st.nBlockTx + 1, nBlockSigOps := st.nBlockSigOps + e.sigOps,
    nFees := st.nFees + e.fee, inBlock := e.id :: st.inBlock }

/-- `isStillDependent` (`subblock_miner.cpp:296-306`): some mempool parent is
not yet in the block. -/
def isStillDependent (st : BlkState) (e : MemEntry) : Bool :=
  e.parents.any (fun p => !(st.inBlock.contains p))

/-- `IsIncrementallyGood` (`subblock_miner.cpp:335-382`).  Returns the updated
state (`lastFewTxs` / `blockFinished` side effects) and the verdict.  The
`uint64` subtractions on the near-full thresholds wrap, as in the source. -/
def isIncrementallyGood (env : MinerEnv) (st : BlkState) (extraSize extraSigOps : Nat) :
    BlkState × Bool :=
  if st.nBlockSize + extraSize > env.nBlockMaxSize then
    if st.nBlockSize > usub64 env.nBlockMaxSize 100 ∨ st.lastFewTxs > 50 then
      ({ st with blockFinished := true }, false)
    else if st.nBlockSize > usub64 env.nBlockMaxSize 1000 then
      ({ st with lastFewTxs := st.lastFewTxs + 1 }, false)
    else (st, false)
  else if !env.may2020 then
    if st.nBlockSigOps + extraSigOps > env.getMaxBlockSigOpsCount st.nBlockSize then
      if st.nBlockSigOps > usub64 (env.getMaxBlockSigOpsCount st.nBlockSize) 2 then
        ({ st with blockFinished := true }, false)
      else (st, false)
    else (st, true)
  else
    if st.nBlockSigOps + extraSigOps > env.maxSigChecks then
      if st.nBlockSigOps > usub64 env.maxSigChecks 2 then
        ({ st with blockFinished := true }, false)
      else (st, false)
    else (st, true)

/-- Modelled from the spec: `MIN_TX_SIZE` (consensus constant, not under the
embedded sources); post-Nov-2018 every transaction must be at least 100 bytes. -/
def MIN_TX_SIZE : Nat := 100

/-- `TestForBlock` (`subblock_miner.cpp:384-426`): incremental capacity check,
finality, Nov-2018 minimum size, one-second age rule, respend oracle. -/
def testForBlock (env : MinerEnv) (st : BlkState) (e : MemEntry) : BlkState × Bool :=
  let g := isIncrementallyGood env st e.size e.sigOps
  if !g.2 then (g.1, false)
  else if !(env.isFinalTx e.id) then (g.1, false)
  else if env.nov2018 ∧ e.size < MIN_TX_SIZE then (g.1, false)
  else if env.txRecent e.id then (g.1, false)
  else if env.likelyRespent e.id then (g.1, false)
  else (g.1, true)

/-! ## Ancestor walk (`mempool._CalculateMemPoolAncestors`) -/

/-- Lookup of a pool entry by id (the role of `mempool.mapTx.find`). -/
def poolFind (pool : List MemEntry) (i : Nat) : Option MemEntry :=
  pool.find? (fun e => e.id == i)

/-- Parents of the entry with id `i`, empty when `i` is not in the pool. -/
def parentsOf (pool : List MemEntry) (i : Nat) : List Nat :=
  ((poolFind pool i).map MemEntry.parents).getD []

/-- Modelled from the spec: `_CalculateMemPoolAncestors` (`txmempool.cpp`, not
under the embedded sources) "performs a bounded ancestor walk that stops at
entries in the passed stop set" (§6); it is called with all limits disabled and
`inBlock` as the stop set (`subblock_miner.cpp:574-575`).  Embedded as a
fuel-indexed depth-first walk over the parent links; `calcAncestorIds` supplies
enough fuel for the walk to complete (see `ancWalk_closed`). -/
def ancWalk (pool : List MemEntry) (stopIds : List Nat) :
    Nat → List Nat → List Nat → List Nat
  | 0, _, acc => acc
  | _ + 1, [], acc => acc
  | fuel + 1, x :: rest, acc =>
      if acc.contains x || stopIds.contains x then ancWalk pool stopIds fuel rest acc
      else ancWalk pool stopIds fuel (parentsOf pool x ++ rest) (x :: acc)

/-- Total length of the parent lists of pool entries whose id is not in `acc`;
an upper bound on the frontier elements the walk can still generate. -/
def restSum (pool : List MemEntry) (acc : List Nat) : Nat :=
  ((pool.filter (fun e => !(acc.contains e.id))).map (fun e => e.parents.length)).sum

/-- Fuel sufficient for `ancWalk` starting from `e.parents`. -/
def walkFuel (pool : List MemEntry) (e : MemEntry) : Nat :=
  e.parents.length + restSum pool [] + 1

/-- The ids of the not-yet-in-block ancestors of `e` (result of the external
ancestor walk; does not contain `e` itself unless the parent links are cyclic). -/
def calcAncestorIds (pool : List MemEntry) (stopIds : List Nat) (e : MemEntry) : List Nat :=
  ancWalk pool stopIds (walkFuel pool e) e.parents []

/-! ## The selectors -/

/-- Pop the element with the maximal `key` (the role of the priority queues /
heaps in `addPriorityTxs` and `addScoreTxs`). -/
def popMaxBy {α : Type} (key : α → Int) : List α → Option (α × List α)
  | [] => none
  | x :: xs =>
    match popMaxBy key xs with
    | none => some (x, [])
    | some (m, rest) => if key x < key m then some (m, x :: rest) else some (x, xs)

/-- Loop body of `addPriorityTxs` (`subblock_miner.cpp:665-713`): pop the
highest-priority entry; skip it when already in block; park it in the
waiting-by-priority map while a mempool parent is missing; otherwise run
`TestForBlock` and, on acceptance, commit and stop once the priority region is
filled or the entry no longer qualifies as free, else re-queue the parked
children of the committed entry. -/
def priLoop (env : MinerEnv) (prioSize : Nat) :
    Nat → List MemEntry → List MemEntry → BlkState → BlkState
  | 0, _, _, st => st
  | fuel + 1, vecPri, waitPri, st =>
    if st.blockFinished then st else
    match popMaxBy MemEntry.priorityKey vecPri with
    | none => st
    | some (e, rest) =>
      if st.inBlock.contains e.id then priLoop env prioSize fuel rest waitPri st
      else if isStillDependent st e then priLoop env prioSize fuel rest (e :: waitPri) st
      else
        let p := testForBlock env st e
        if p.2 then
          let st2 := addToBlock p.1 e
          if st2.nBlockSize ≥ prioSize || !(env.allowFree e.priorityKey) then st2
          else
            let c := waitPri.filter (fun w => w.parents.contains e.id)
            priLoop env prioSize fuel (rest ++ c)
              (waitPri.filter (fun w => !(w.parents.contains e.id))) st2
        else priLoop env prioSize fuel rest waitPri p.1

/-- `addPriorityTxs` (`subblock_miner.cpp:636-714`): cap the priority region at
`nBlockMaxSize`, do nothing when it is zero, else run the heap loop over the
whole pool. -/
def addPriorityTxs (env : MinerEnv) (pool : List MemEntry) (fuel : Nat) (st : BlkState) :
    BlkState :=
  let prioSize := min env.nBlockMaxSize env.blockPrioritySize
  if prioSize = 0 then st else priLoop env prioSize fuel pool [] st

/-- Loop body of `addScoreTxs` (`subblock_miner.cpp:463-519`): take the next
candidate from the cleared-transactions queue when it is non-empty (its
elements outscore everything untried), else from the mining-score index; skip
in-block entries; park entries with a missing parent in the wait set; on
acceptance move the committed entry's parked children to the cleared queue. -/
def scoreLoop (env : MinerEnv) (pool : List MemEntry) :
    Nat → List MemEntry → List MemEntry → List Nat → BlkState → BlkState
  | 0, _, _, _, st => st
  | fuel + 1, index, cleared, waitSet, st =>
    if st.blockFinished then st else
    let pick : Option (MemEntry × List MemEntry × List MemEntry) :=
      match popMaxBy MemEntry.scoreKey cleared with
      | some (e, c2) => some (e, index, c2)
      | none =>
        match index with
        | [] => none
        | e :: tl => some (e, tl, [])
    match pick with
    | none => st
    | some (e, index2, cleared2) =>
      if st.inBlock.contains e.id then scoreLoop env pool fuel index2 cleared2 waitSet st
      else if isStillDependent st e then
        scoreLoop env pool fuel index2 cleared2 (e.id :: waitSet) st
      else
        let p := testForBlock env st e
        if p.2 then
          let st2 := addToBlock p.1 e
          let c := pool.filter (fun w => w.parents.contains e.id && waitSet.contains w.id)
          scoreLoop env pool fuel index2 (cleared2 ++ c)
            (waitSet.filter (fun i => !((c.map MemEntry.id).contains i))) st2
        else scoreLoop env pool fuel index2 cleared2 waitSet p.1

/-- `addScoreTxs`: run the score loop over the mining-score index (the pool in
descending single-tx score order) with empty cleared queue and wait set. -/
def addScoreTxs (env : MinerEnv) (pool : List MemEntry) (fuel : Nat) (st : BlkState) :
    BlkState :=
  scoreLoop env pool fuel (sortByKey (fun e => (2 ^ 64 - e.scoreKey).toNat) pool) [] [] st

/-- `MAX_PACKAGE_FAILURES` (`subblock_miner.cpp:50`). -/
def MAX_PACKAGE_FAILURES : Nat := 5

/-- The ancestor package of candidate `e`: the not-yet-in-block ancestors
together with `e` itself (`ancestors.insert(iter)`, `subblock_miner.cpp:578`). -/
def packageAncestorIds (pool : List MemEntry) (st : BlkState) (e : MemEntry) : List Nat :=
  let anc := calcAncestorIds pool st.inBlock e
  if anc.contains e.id then anc else e.id :: anc

/-- The package as a list of entries, in tx-hash order (the iteration order of
the `setEntries`). -/
def packageEntries (pool : List MemEntry) (ids : List Nat) : List MemEntry :=
  sortByKey MemEntry.id (ids.filterMap (poolFind pool))

/-- `TestPackageSigOps` (`subblock_miner.cpp:308-319`), as a pure function: the
pre-May-2020 ceiling is recomputed from the prospective block size, the
post-May-2020 ceiling is the configured constant; equality with the ceiling
already fails. -/
def testPackageSigOps (env : MinerEnv) (st : BlkState) (packageSize packageSigOps : Nat) :
    Bool :=
  let m := if env.may2020 then env.maxSigChecks
           else env.getMaxBlockSigOpsCount (st.nBlockSize + packageSize)
  !(st.nBlockSigOps + packageSigOps ≥ m)

/-- `TestPackageFinality` (`subblock_miner.cpp:323-331`). -/
def testPackageFinality (env : MinerEnv) (es : List MemEntry) : Bool :=
  es.all (fun a => env.isFinalTx a.id)

/-- Outcome of one candidate of `addPackageTxs`: either the selector returns
(ending the fee phase) or it continues with the next index entry. -/
inductive PkgOutcome where
  | ret (st : BlkState) (fails : Nat)
  | cont (st : BlkState) (fails : Nat)
  deriving DecidableEq, Repr

/-- The size-fit, sigops and finality part of one `addPackageTxs` candidate
(`subblock_miner.cpp:598-632`): an oversize package bumps the failure counter
only when the block is more than half full and the selector returns once the
counter reaches `MAX_PACKAGE_FAILURES`; then sigops and finality checks skip
the candidate; otherwise the whole package is committed.  The source compares
`nBlockSize > nBlockMaxSize * .50` in `double` arithmetic, which coincides with
`2 * nBlockSize > nBlockMaxSize` for all sizes below `2^53`. -/
def packageFitPhase (env : MinerEnv) (anc : List MemEntry) (st : BlkState) (fails : Nat)
    (packageSize packageSigOps : Nat) : PkgOutcome :=
  if st.nBlockSize + packageSize > env.nBlockMaxSize then
    let f2 := if 2 * st.nBlockSize > env.nBlockMaxSize then fails + 1 else fails
    if f2 ≥ MAX_PACKAGE_FAILURES then .ret st f2 else .cont st f2
  else if !(testPackageSigOps env st packageSize packageSigOps) then .cont st fails
  else if !(testPackageFinality env anc) then .cont st fails
  else .cont (anc.foldl addToBlock st) fails

/-- The candidate's package size and sigop count (`subblock_miner.cpp:565-591`):
the precomputed with-ancestors summary, recomputed by summing over the trimmed
ancestor set when part of the ancestry is already in the block
(`iter->GetCountWithAncestors() > ancestors.size()`). -/
def packageSizeSigOps (pool : List MemEntry) (st : BlkState) (e : MemEntry) : Nat × Nat :=
  let ids := packageAncestorIds pool st e
  let anc := packageEntries pool ids
  if e.countWithAncestors > ids.length then
    ((anc.map MemEntry.size).sum, (anc.map MemEntry.sigOps).sum)
  else (e.sizeWithAncestors, e.sigOpsWithAncestors)

/-- One candidate of `addPackageTxs` (`subblock_miner.cpp:555-633`): skip
in-block entries; return when the package fee is below the relay floor while
the block has reached `nBlockMinSize`; otherwise run the fit phase. -/
def packageCandidateStep (env : MinerEnv) (pool : List MemEntry) (e : MemEntry)
    (st : BlkState) (fails : Nat) : PkgOutcome :=
  if st.inBlock.contains e.id then .cont st fails
  else
    let anc := packageEntries pool (packageAncestorIds pool st e)
    let ps := packageSizeSigOps pool st e
    if e.modFeesWithAncestors < env.minRelayGetFee ps.1 ∧ st.nBlockSize ≥ env.nBlockMinSize
    then .ret st fails
    else packageFitPhase env anc st fails ps.1 ps.2

/-- The `addPackageTxs` iteration over the ancestor-score index. -/
def addPackageTxsLoop (env : MinerEnv) (pool : List MemEntry) :
    List MemEntry → BlkState → Nat → BlkState
  | [], st, _ => st
  | e :: rest, st, fails =>
    match packageCandidateStep env pool e st fails with
    | .ret st2 _ => st2
    | .cont st2 f2 => addPackageTxsLoop env pool rest st2 f2

/-- `addPackageTxs` (`subblock_miner.cpp:549-634`): iterate the pool in
descending ancestor-score order, starting with zero package failures. -/
def addPackageTxs (env : MinerEnv) (pool : List MemEntry) (st : BlkState) : BlkState :=
  addPackageTxsLoop env pool (sortByKey (fun e => (2 ^ 64 - e.ancestorScoreKey).toNat) pool) st 0

/-- The selection phase of `CreateNewSubBlock` (`subblock_miner.cpp:230-244`):
priority region first, then exactly one of the package (CPFP) or score
selectors. -/
def selectTxs (env : MinerEnv) (pool : List MemEntry) (fuel : Nat) : BlkState :=
  let st1 := addPriorityTxs env pool fuel (initState env)
  if env.miningCPFP then addPackageTxs env pool st1 else addScoreTxs env pool fuel st1

/-! ## Template construction (`CreateNewSubBlock`, lines 187-294) -/

/-- Chain-state collaborators of `CreateNewSubBlock` and the proof-base
builder: the tip, the external version / difficulty / serialized-size /
sigop-count functions, the formatted `COINBASE_FLAGS` blob and the byte
encoding `CScript::operator<<` produces for a zero-filled padding vector. -/
structure ChainEnv where
  tipHash : Nat
  tipHeight : Nat
  medianTimePast : Nat
  computeBlockVersion : Nat → Int
  getNextWorkRequired : Nat → Nat
  coinbaseFlags : List Nat
  serializeSize : List CTxIn → Nat
  pushVec : Nat → List Nat
  legacySigOps : List CTxIn → Int
  fXVal : Bool

/-- The complete `proofbaseTx` pipeline (`subblock_miner.cpp:131-185`): build
the inputs, append the (possibly truncated) `COINBASE_FLAGS` to `vin[0]`, then
under the Nov-2018 rule pad `vin[0].scriptSig` when the serialized transaction
is smaller than `MIN_TX_SIZE`. -/
def proofbaseTxFull (chain : ChainEnv) (scriptPubKeyIn : List Nat) (tips : List Nat)
    (nov2018 : Bool) : List CTxIn :=
  match proofbaseVin scriptPubKeyIn tips with
  | [] => []
  | v0 :: rest =>
    let v1 : CTxIn := { v0 with scriptSig := applyCoinbaseFlags v0.scriptSig chain.coinbaseFlags }
    let sz := chain.serializeSize (v1 :: rest)
    if sz < MIN_TX_SIZE ∧ nov2018 then
      { v1 with scriptSig := v1.scriptSig ++ chain.pushVec (MIN_TX_SIZE - sz - 1) } :: rest
    else v1 :: rest

structure SubBlockHeader where
  nVersion : Int
  hashPrevBlock : Nat
  hashMerkleRoot : Nat
  nTime : Nat
  nBits : Nat
  nNonce : Nat
  deriving DecidableEq, Repr

/-- The emitted bundle (`CSubBlockTemplate`): header, proof-base inputs, the
remaining transactions (by hash surrogate) and the parallel fee / sigop
arrays. -/
structure SubBlockTemplate where
  header : SubBlockHeader
  vtx0 : List CTxIn
  vtxRest : List Nat
  vTxFees : List Int
  vTxSigOps : List Int
  fXVal : Bool
  deriving Repr

/-- `CreateNewSubBlock` (`subblock_miner.cpp:187-294`).  `clock` is the wall
clock observed through `GetAdjustedTime` / `UpdateTime`: `pblock->nTime` is
first set to `GetAdjustedTime()` (line 218, feeding the version computation)
and later raised by `UpdateTime` to at least `medianTimePast + 1` (line 269).
The selected entries are sorted by tx hash, the proof-base fee slot carries
`-nFees`, and the proof-base sigop slot is the legacy count pre-May-2020 and
zero afterwards. -/
def createNewSubBlock (env : MinerEnv) (chain : ChainEnv) (pool : List MemEntry)
    (tips : List Nat) (scriptPubKeyIn : List Nat) (fuel clock : Nat) : SubBlockTemplate :=
  let st := selectTxs env pool fuel
  let sorted := sortByKey MemEntry.id st.vtxe
  let ver := chain.computeBlockVersion clock
  let nT := max (chain.medianTimePast + 1) clock
  let pb := proofbaseTxFull chain scriptPubKeyIn tips env.nov2018
  { header := { nVersion := ver, hashPrevBlock := chain.tipHash, hashMerkleRoot := 0,
                nTime := nT, nBits := chain.getNextWorkRequired nT, nNonce := 0 },
    vtx0 := pb,
    vtxRest := sorted.map MemEntry.id,
    vTxFees := (-st.nFees) :: sorted.map MemEntry.fee,
    vTxSigOps := (if env.may2020 then 0 else chain.legacySigOps pb) ::
      sorted.map (fun e => (e.sigOps : Int)),
    fXVal := chain.fXVal }

/-! ## The token DB flush (`CSLPTokenDB::BatchWrite`, `slpdb.cpp:57-124`) -/

/-- One cache entry as seen by `BatchWrite`: the `DIRTY` flag bit, whether the
token is spent, and an opaque serialized token value. -/
structure TokenCacheEntry where
  dirty : Bool
  spent : Bool
  tok : Nat
  deriving DecidableEq, Repr

/-- Operations applied to the underlying LevelDB store, in the order they reach
it.  A batched `Write`/`Erase` reaches the store when its batch is committed by
`db.WriteBatch`; `_WriteBestBlock` writes immediately. -/
inductive DBOp where
  | writeTok (key : Nat) (tok : Nat)
  | eraseTok (key : Nat)
  | writeBestBlock (h : Nat)
  deriving DecidableEq, Repr

def DBOp.isEntryOp : DBOp → Bool
  | .writeTok _ _ => true
  | .eraseTok _ => true
  | .writeBestBlock _ => false

/-- The loop of `BatchWrite` (`slpdb.cpp:69-116`): returns the already
committed operations (`flushed`, the fragments written whenever the batch size
estimate exceeded the threshold) and the still pending batch.  `estimate` is
`CDBBatch::SizeEstimate`, external. -/
def batchWriteLoop (estimate : List DBOp → Nat) (thr : Nat) :
    List (Nat × TokenCacheEntry) → List DBOp → List DBOp → List DBOp × List DBOp
  | [], flushed, batch => (flushed, batch)
  | (k, c) :: rest, flushed, batch =>
    if c.dirty then
      let batch2 := batch ++ [if c.spent then DBOp.eraseTok k else DBOp.writeTok k c.tok]
      if estimate batch2 > thr then
        batchWriteLoop estimate thr rest (flushed ++ batch2) []
      else
        batchWriteLoop estimate thr rest flushed batch2
    else
      batchWriteLoop estimate thr rest flushed batch

/-- The sequence of store operations performed by `CSLPTokenDB::BatchWrite`
(`slpdb.cpp:57-124`): the fragments committed inside the loop, then — when a
best block hash is supplied — the immediate `_WriteBestBlock` (line 117-118),
then the final `db.WriteBatch(batch)` of the pending fragment (line 120). -/
def batchWriteTrace (estimate : List DBOp → Nat) (thr : Nat)
    (m : List (Nat × TokenCacheEntry)) (hashBlock : Option Nat) : List DBOp :=
  (batchWriteLoop estimate thr m [] []).1 ++
    (match hashBlock with | some h => [DBOp.writeBestBlock h] | none => []) ++
    (batchWriteLoop estimate thr m [] []).2

/-- The ordering property claimed for the flush: no token write or erase
reaches the store after the best-block hash has been advanced. -/
def bestBlockAfterWrites (tr : List DBOp) : Prop :=
  ∀ pre h suf, tr = pre ++ DBOp.writeBestBlock h :: suf → suf.all (fun o => !o.isEntryOp)

/-! ## SLP send validation (`ValidateSend`, `slpvalidation.cpp:37-55`) -/

/-- Modelled from the spec: the observations of `CSLPToken`
(`slptokens/token.h`, not under the embedded sources) that `ValidateSend`
reads.  `getOutputAmountAt i` is the token output amount the parsed input
token assigns to output index `i`, and `getOutputAmount` the new token's total
output amount; both are `uint64_t` in the source, enforced here by reducing
modulo `2^64` at every use. -/
structure SLPTokenObs where
  getOutputAmountAt : Nat → Nat
  getOutputAmount : Nat

/-- The coin view and token parser as `ValidateSend` consumes them:
`getCoin i` is `view.GetCoin(input.prevout, coin)` (`none` = missing coin),
returning the coin's script surrogate, and `parseBytes s` is
`CSLPToken::ParseBytes` on that script (`none` = nonzero error code). -/
structure SLPEnv where
  getCoin : COutPoint → Option Nat
  parseBytes : Nat → Option SLPTokenObs

/-- The input loop of `ValidateSend`: accumulate `total_in` over the inputs in
`uint64_t` arithmetic, failing out when a coin is missing; scripts that do not
parse as tokens contribute zero. -/
def validateSendLoop (env : SLPEnv) (vin : List COutPoint) (acc : Nat) : Option Nat :=
  match vin with
  | [] => some acc
  | i :: rest =>
    match env.getCoin i with
    | none => none
    | some s =>
      let a := match env.parseBytes s with
        | some t => t.getOutputAmountAt i.n % 2 ^ 64
        | none => 0
      validateSendLoop env rest ((acc + a) % 2 ^ 64)

/-- `ValidateSend` (`slpvalidation.cpp:37-55`): every input must have a coin in
the view and the accumulated input amount must equal the new token's total
output amount. -/
def validateSend (env : SLPEnv) (vin : List COutPoint) (newToken : SLPTokenObs) : Bool :=
  match validateSendLoop env vin 0 with
  | none => false
  | some tin => tin == newToken.getOutputAmount % 2 ^ 64

/-- The mathematical (unbounded) input token sum named by the claim: parsed
input tokens contribute their amount at the spent index, unparsable scripts
contribute zero. -/
def inputAmountSum (env : SLPEnv) (vin : List COutPoint) : Nat :=
  (vin.map (fun i =>
    match env.getCoin i with
    | none => 0
    | some s =>
      match env.parseBytes s with
      | some t => t.getOutputAmountAt i.n % 2 ^ 64
      | none => 0)).sum

/-! ## Well-formedness and the selection invariant -/

/-- Structural invariant of the mempool data structure: tx hashes are distinct
and every `GetMemPoolParents` link points back into the mempool. -/
def poolWF (pool : List MemEntry) : Prop :=
  (pool.map MemEntry.id).Nodup ∧
  ∀ e ∈ pool, ∀ p ∈ e.parents, p ∈ pool.map MemEntry.id

/-- Invariant the selection phase maintains: every committed entry comes from
the pool, `inBlock` holds exactly the committed ids, every committed entry's
mempool parents are committed, and `nFees` is the sum of the committed fees. -/
def stInv (pool : List MemEntry) (st : BlkState) : Prop :=
  (∀ e ∈ st.vtxe, e ∈ pool) ∧
  (∀ i : Nat, i ∈ st.inBlock ↔ i ∈ st.vtxe.map MemEntry.id) ∧
  (∀ e ∈ st.vtxe, ∀ p ∈ e.parents, p ∈ st.inBlock) ∧
  st.nFees = (st.vtxe.map MemEntry.fee).sum

/-! ## Concrete fixtures used by witnesses and counterexamples -/

/-- A small benign environment: CPFP mining, no priority region, no relay
floor, permissive oracles. -/
def envA : MinerEnv :=
  { nBlockMaxSize := 1000000, nBlockMinSize := 0, blockPrioritySize := 0,
    reservedSize := 1000, nov2018 := true, may2020 := true, miningCPFP := true,
    maxSigChecks := 100000, getMaxBlockSigOpsCount := fun _ => 20000,
    minRelayGetFee := fun _ => 0, isFinalTx := fun _ => true,
    txRecent := fun _ => false, likelyRespent := fun _ => false,
    allowFree := fun _ => true }

/-- Tight-capacity variant of `envA` (`nBlockMaxSize = 100`). -/
def envB : MinerEnv := { envA with nBlockMaxSize := 100 }

/-- Variant of `envB` with a high relay floor. -/
def envD : MinerEnv := { envB with minRelayGetFee := fun _ => 1000 }

/-- A parentless pool entry. -/
def entry1 : MemEntry :=
  { id := 1, size := 200, fee := 10, sigOps := 1, parents := [],
    priorityKey := 0, scoreKey := 5, ancestorScoreKey := 5,
    sizeWithAncestors := 200, modFeesWithAncestors := 10,
    sigOpsWithAncestors := 1, countWithAncestors := 1 }

/-- A child of `entry1`. -/
def entry2 : MemEntry :=
  { id := 2, size := 150, fee := 20, sigOps := 1, parents := [1],
    priorityKey := 0, scoreKey := 9, ancestorScoreKey := 7,
    sizeWithAncestors := 350, modFeesWithAncestors := 30,
    sigOpsWithAncestors := 2, countWithAncestors := 2 }

/-- A parentless entry whose package is oversized for `envB`. -/
def entry3 : MemEntry :=
  { id := 3, size := 200, fee := 0, sigOps := 1, parents := [],
    priorityKey := 0, scoreKey := 1, ancestorScoreKey := 1,
    sizeWithAncestors := 200, modFeesWithAncestors := 0,
    sigOpsWithAncestors := 1, countWithAncestors := 1 }

/-- Two-entry parent/child pool. -/
def poolB : List MemEntry := [entry1, entry2]

/-- A selection state 60 bytes into an `envB`-sized block. -/
def stW : BlkState :=
  { inBlock := [], vtxe := [], nBlockSize := 60, nBlockTx := 0,
    nBlockSigOps := 100, nFees := 0, lastFewTxs := 0, blockFinished := false }

/-- Trivial chain environment for template fixtures. -/
def chainA : ChainEnv :=
  { tipHash := 77, tipHeight := 10, medianTimePast := 0,
    computeBlockVersion := fun _ => 4, getNextWorkRequired := fun _ => 545259519,
    coinbaseFlags := [1, 2], serializeSize := fun v => 100 + (v.map (fun i => i.scriptSig.length + 41)).sum,
    pushVec := fun n => n :: List.replicate n 0, legacySigOps := fun _ => 1,
    fXVal := true }

/-- SLP fixture: every coin exists and every script parses to a token paying
`2^63` at every index; the new token's total is zero.  Two such inputs make
the `uint64` accumulator wrap to zero. -/
def slpEnvOverflow : SLPEnv :=
  { getCoin := fun _ => some 0,
    parseBytes := fun _ => some { getOutputAmountAt := fun _ => 2 ^ 63, getOutputAmount := 0 } }

def slpVinOverflow : List COutPoint := [{ hash := 1, n := 0 }, { hash := 2, n := 0 }]

def slpTokOverflow : SLPTokenObs := { getOutputAmountAt := fun _ => 0, getOutputAmount := 0 }

/-- SLP fixture: one coin carrying 5 token units, new token total 5. -/
def slpEnvSmall : SLPEnv :=
  { getCoin := fun _ => some 0,
    parseBytes := fun _ => some { getOutputAmountAt := fun _ => 5, getOutputAmount := 5 } }

def slpTokSmall : SLPTokenObs := { getOutputAmountAt := fun _ => 5, getOutputAmount := 5 }

/-- The statement of claim C9 as written: validation succeeds exactly when all
input coins are present and the mathematical input token sum equals the new
token's total output amount. -/
def validateSendSpecExact (env : SLPEnv) (vin : List COutPoint) (tok : SLPTokenObs) : Prop :=
  validateSend env vin tok = true ↔
    ((∀ i ∈ vin, (env.getCoin i).isSome) ∧ inputAmountSum env vin = tok.getOutputAmount)

/-- A dirty, unspent token cache entry. -/
def tokEntryW : TokenCacheEntry := { dirty := true, spent := false, tok := 7 }

/-! # Theorems -/

/-! ## Generic list lemmas -/

theorem insertByKey_perm {α : Type} (key : α → Nat) (x : α) (l : List α) :
    List.Perm (insertByKey key x l) (x :: l) := by
  induction l with
  | nil => simp [insertByKey]
  | cons y ys ih =>
      by_cases h : key x ≤ key y
      · simp [insertByKey, h]
      · simp only [insertByKey, h, if_false]
        exact (List.Perm.cons y ih).trans (List.Perm.swap x y ys)

theorem sortByKey_perm {α : Type} (key : α → Nat) (l : List α) :
    List.Perm (sortByKey key l) l := by
  induction l with
  | nil => simp [sortByKey]
  | cons x xs ih =>
      exact (insertByKey_perm key x (sortByKey key xs)).trans (List.Perm.cons x ih)

theorem mem_sortByKey {α : Type} {key : α → Nat} {x : α} {l : List α} :
    x ∈ sortByKey key l ↔ x ∈ l := (sortByKey_perm key l).mem_iff

theorem cppResize_length (l : List Nat) (n : Nat) : (cppResize l n).length = n := by
  unfold cppResize
  by_cases h : n ≤ l.length
  · simp [h]
  · simp [h]
    omega

/-! ## C1 — proof-base input structure -/

/-- C1 counterexample: with tip list `[5]` the appended input's outpoint is
`(5, 0xFFFFFFFF)` — the index field is left at the null sentinel, not set to
`0` as the claim states. -/
theorem proofbaseVin_tip_index_ctrex :
    (proofbaseVin [] [5]).get? 1 =
      some { prevout := { hash := 5, n := 4294967295 }, scriptSig := [] } ∧
    (4294967295 : Nat) ≠ 0 := by
  constructor
  · rfl
  · decide

/-- C1 (amended): the proof-base input list has exactly `max 2 (1 + |tips|)`
inputs; `vin[0]` is a synthetic null-outpoint input carrying the miner
scriptSig; with no tips exactly one extra null-outpoint input with index 0 is
appended; otherwise exactly one input per tip with outpoint
`(tipHash, COUTPOINT_NULL_INDEX)`. -/
theorem proofbaseVin_shape (s tips : List Nat) :
    (proofbaseVin s tips).length = max 2 (1 + tips.length) ∧
    (proofbaseVin s tips).get? 0 = some { prevout := nullOutPoint, scriptSig := s } ∧
    (tips = [] → proofbaseVin s tips =
      [{ prevout := nullOutPoint, scriptSig := s },
       { prevout := { hash := 0, n := 0 }, scriptSig := [] }]) ∧
    (tips ≠ [] → (proofbaseVin s tips).drop 1 =
      tips.map (fun h => { prevout := { hash := h, n := COUTPOINT_NULL_INDEX }, scriptSig := [] })) := by
  cases tips with
  | nil => refine ⟨by simp [proofbaseVin], by simp [proofbaseVin], fun _ => by simp [proofbaseVin], fun h => absurd rfl h⟩
  | cons t ts =>
      refine ⟨?_, ?_, ?_, ?_⟩
      · simp [proofbaseVin]
        omega
      · simp [proofbaseVin]
      · intro h
        exact absurd h (List.cons_ne_nil t ts)
      · intro _
        simp [proofbaseVin]

/-- Witness for `proofbaseVin_shape` at concrete inputs. -/
theorem proofbaseVin_shape_witness :
    proofbaseVin [7] [] =
      [{ prevout := nullOutPoint, scriptSig := [7] },
       { prevout := { hash := 0, n := 0 }, scriptSig := [] }] ∧
    (proofbaseVin [7] [11, 12]).length = max 2 (1 + [11, 12].length) :=
  ⟨(proofbaseVin_shape [7] []).2.2.1 rfl, (proofbaseVin_shape [7] [11, 12]).1⟩

/-! ## C6 — block size clamping -/

/-- C6 counterexample: a configured `maxGeneratedBlock` of 0 passes through the
constructor unchanged, so the effective maximum lies outside the claimed
`[1000, MAX_BLOCK_SIZE - 1000]` range. -/
theorem blockMaxSize_clamp_ctrex :
    subBlockAssemblerMaxSize 0 = 0 ∧
    ¬(1000 ≤ subBlockAssemblerMaxSize 0 ∧ subBlockAssemblerMaxSize 0 ≤ MAX_BLOCK_SIZE - 1000) := by
  decide

/-- C6 (amended): the constructor applies no clamping at all — the effective
`nBlockMaxSize` equals the configured `maxGeneratedBlock` for every value (the
clamp survives only as a comment), and only `nBlockMinSize` is clamped, to at
most `nBlockMaxSize`. -/
theorem blockMaxSize_unclamped (v m : Nat) :
    subBlockAssemblerMaxSize v = v ∧ subBlockAssemblerMinSize v m = min v m :=
  ⟨rfl, rfl⟩

/-! ## C10 — COINBASE_FLAGS truncation safety -/

/-- C10: for a miner script within `MAX_COINBASE_SCRIPTSIG_SIZE` the unsigned
subtraction in the flags truncation cannot underflow (it equals the exact
difference) and the truncated `vin[0].scriptSig` (before any `MIN_TX_SIZE`
padding) stays within the bound; the precondition is required — an oversized
miner script wraps the `size_t` subtraction and the bound fails. -/
theorem coinbaseFlags_truncation_safe :
    (∀ s f : List Nat, s.length ≤ MAX_COINBASE_SCRIPTSIG_SIZE →
      usub64 MAX_COINBASE_SCRIPTSIG_SIZE s.length = MAX_COINBASE_SCRIPTSIG_SIZE - s.length ∧
      (applyCoinbaseFlags s f).length ≤ MAX_COINBASE_SCRIPTSIG_SIZE) ∧
    (∃ s f : List Nat, MAX_COINBASE_SCRIPTSIG_SIZE < s.length ∧
      MAX_COINBASE_SCRIPTSIG_SIZE < usub64 MAX_COINBASE_SCRIPTSIG_SIZE s.length ∧
      MAX_COINBASE_SCRIPTSIG_SIZE < (applyCoinbaseFlags s f).length) := by
  constructor
  · intro s f hs
    have h1 : usub64 MAX_COINBASE_SCRIPTSIG_SIZE s.length =
        MAX_COINBASE_SCRIPTSIG_SIZE - s.length := by
      unfold usub64 MAX_COINBASE_SCRIPTSIG_SIZE at *
      omega
    refine ⟨h1, ?_⟩
    unfold applyCoinbaseFlags
    by_cases h : s.length + f.length > MAX_COINBASE_SCRIPTSIG_SIZE
    · rw [if_pos h]
      rw [List.length_append, cppResize_length, h1]
      omega
    · rw [if_neg h]
      rw [List.length_append]
      omega
  · refine ⟨List.replicate 101 0, [0], by simp [MAX_COINBASE_SCRIPTSIG_SIZE], ?_, ?_⟩
    · norm_num [usub64, MAX_COINBASE_SCRIPTSIG_SIZE]
    · have h : (List.replicate 101 (0 : Nat)).length + [(0 : Nat)].length >
          MAX_COINBASE_SCRIPTSIG_SIZE := by
        simp [MAX_COINBASE_SCRIPTSIG_SIZE]
      unfold applyCoinbaseFlags
      rw [if_pos h]
      rw [List.length_append, cppResize_length]
      norm_num [usub64, MAX_COINBASE_SCRIPTSIG_SIZE]

/-- Witness for `coinbaseFlags_truncation_safe` at a concrete in-bound script. -/
theorem coinbaseFlags_truncation_safe_witness :
    (List.replicate 40 7).length ≤ MAX_COINBASE_SCRIPTSIG_SIZE ∧
    (applyCoinbaseFlags (List.replicate 40 7) (List.replicate 70 3)).length ≤
      MAX_COINBASE_SCRIPTSIG_SIZE :=
  ⟨by simp [MAX_COINBASE_SCRIPTSIG_SIZE],
   (coinbaseFlags_truncation_safe.1 (List.replicate 40 7) (List.replicate 70 3)
     (by simp [MAX_COINBASE_SCRIPTSIG_SIZE])).2⟩

/-! ## C9 — ValidateSend -/

/-- The accumulator loop of `ValidateSend` computes the `uint64` (mod `2^64`)
sum of the parsed input amounts when every coin is present, and fails
otherwise. -/
theorem validateSendLoop_eq (env : SLPEnv) (vin : List COutPoint) :
    ∀ acc : Nat, acc < 2 ^ 64 →
      validateSendLoop env vin acc =
        if vin.all (fun i => (env.getCoin i).isSome) then
          some ((acc + inputAmountSum env vin) % 2 ^ 64)
        else none := by
  induction vin with
  | nil =>
      intro acc hacc
      simp [validateSendLoop, inputAmountSum]
      omega
  | cons i rest ih =>
      intro acc hacc
      unfold validateSendLoop
      cases hc : env.getCoin i with
      | none => simp [inputAmountSum, hc]
      | some s =>
          dsimp only
          rw [ih _ (Nat.mod_lt _ (by norm_num))]
          have hsum : inputAmountSum env (i :: rest) =
              (match env.parseBytes s with
               | some t => t.getOutputAmountAt i.n % 2 ^ 64
               | none => 0) + inputAmountSum env rest := by
            simp [inputAmountSum, hc]
          by_cases hall : rest.all (fun j => (env.getCoin j).isSome)
          · rw [if_pos hall, if_pos (show ((i :: rest).all fun j => (env.getCoin j).isSome) = true by
              simp [List.all_cons, hc, hall])]
            rw [hsum]
            generalize (match env.parseBytes s with
               | some t => t.getOutputAmountAt i.n % 2 ^ 64
               | none => 0) = A
            congr 1
            omega
          · rw [if_neg hall, if_neg (show ¬ ((i :: rest).all fun j => (env.getCoin j).isSome) = true by
              simp [List.all_cons, hc, hall])]

/-- C9 counterexample: with two inputs each carrying `2^63` token units and a
new token paying zero, `ValidateSend` accepts (the `uint64_t` accumulator
wraps to zero) although the mathematical input sum `2^64` differs from the
output total `0`; the claimed equivalence fails at this input. -/
theorem validateSend_exact_sum_ctrex :
    validateSend slpEnvOverflow slpVinOverflow slpTokOverflow = true ∧
    inputAmountSum slpEnvOverflow slpVinOverflow = 2 ^ 64 ∧
    slpTokOverflow.getOutputAmount = 0 ∧
    ¬ validateSendSpecExact slpEnvOverflow slpVinOverflow slpTokOverflow := by
  have h1 : validateSend slpEnvOverflow slpVinOverflow slpTokOverflow = true := by
    decide
  have h2 : inputAmountSum slpEnvOverflow slpVinOverflow = 2 ^ 64 := by
    decide
  refine ⟨h1, h2, rfl, ?_⟩
  intro hspec
  have h3 := (hspec.mp h1).2
  rw [h2] at h3
  exact absurd h3 (by decide)

/-- C9 (amended): `ValidateSend` returns true exactly when every input of the
transaction has a coin in the view and the input token sum — accumulated in
`uint64_t`, i.e. modulo `2^64`, with unparsable scripts contributing zero —
equals the new token's total output amount modulo `2^64`. -/
theorem validateSend_iff (env : SLPEnv) (vin : List COutPoint) (tok : SLPTokenObs) :
    validateSend env vin tok = true ↔
      ((∀ i ∈ vin, (env.getCoin i).isSome) ∧
        inputAmountSum env vin % 2 ^ 64 = tok.getOutputAmount % 2 ^ 64) := by
  unfold validateSend
  rw [validateSendLoop_eq env vin 0 (by norm_num)]
  by_cases hall : vin.all (fun i => (env.getCoin i).isSome)
  · rw [if_pos hall]
    simp only [Nat.zero_add]
    constructor
    · intro h
      refine ⟨by simpa [List.all_eq_true] using hall, by simpa using h⟩
    · intro h
      simpa using h.2
  · rw [if_neg hall]
    simp only [List.all_eq_true] at hall
    constructor
    · intro h
      cases h
    · intro h
      exact absurd (fun i hi => h.1 i hi) hall

/-- Witness for `validateSend_iff`: a one-input send balancing 5 in, 5 out is
accepted. -/
theorem validateSend_iff_witness :
    validateSend slpEnvSmall [{ hash := 3, n := 0 }] slpTokSmall = true :=
  (validateSend_iff slpEnvSmall [{ hash := 3, n := 0 }] slpTokSmall).mpr
    ⟨by decide, by decide⟩

/-! ## C5 — BatchWrite best-block ordering -/

/-- Everything the flush loop emits — both the already committed fragments and
the pending batch — consists of token writes/erases only. -/
theorem batchWriteLoop_entryOps (estimate : List DBOp → Nat) (thr : Nat) :
    ∀ (m : List (Nat × TokenCacheEntry)) (fl ba : List DBOp),
      fl.all DBOp.isEntryOp = true → ba.all DBOp.isEntryOp = true →
      (batchWriteLoop estimate thr m fl ba).1.all DBOp.isEntryOp = true ∧
      (batchWriteLoop estimate thr m fl ba).2.all DBOp.isEntryOp = true := by
  intro m
  induction m with
  | nil => intro fl ba hfl hba; exact ⟨hfl, hba⟩
  | cons kc rest ih =>
      intro fl ba hfl hba
      obtain ⟨k, c⟩ := kc
      unfold batchWriteLoop
      by_cases hd : c.dirty
      · rw [if_pos hd]
        have hop : (if c.spent then DBOp.eraseTok k else DBOp.writeTok k c.tok).isEntryOp = true := by
          by_cases hs : c.spent <;> simp [hs, DBOp.isEntryOp]
        have hba2 : (ba ++ [if c.spent then DBOp.eraseTok k else DBOp.writeTok k c.tok]).all
            DBOp.isEntryOp = true := by
          simp only [List.all_append, Bool.and_eq_true] at *
          exact ⟨hba, by simp [hop]⟩
        by_cases he : estimate (ba ++ [if c.spent then DBOp.eraseTok k else DBOp.writeTok k c.tok]) > thr
        · rw [if_pos he]
          refine ih _ _ ?_ (by simp)
          simp only [List.all_append, Bool.and_eq_true] at *
          exact ⟨hfl, hba2⟩
        · rw [if_neg he]
          exact ih _ _ hfl hba2
      · rw [if_neg hd]
        exact ih _ _ hfl hba

/-- In a trace of entry operations followed by one best-block write, nothing
follows the best-block write. -/
theorem entryOps_bb_split (a : List DBOp) (h0 : Nat) (ha : a.all DBOp.isEntryOp = true) :
    ∀ pre h suf, a ++ [DBOp.writeBestBlock h0] = pre ++ DBOp.writeBestBlock h :: suf →
      suf = [] := by
  induction a with
  | nil =>
      intro pre h suf heq
      cases pre with
      | nil =>
          simp only [List.nil_append] at heq
          exact (List.cons.injEq _ _ _ _ ▸ heq).2.symm ▸ rfl
      | cons p ps =>
          simp only [List.nil_append, List.cons_append] at heq
          have := congrArg List.length heq
          simp at this
  | cons x xs ih =>
      intro pre h suf heq
      simp only [List.all_cons, Bool.and_eq_true] at ha
      cases pre with
      | nil =>
          simp only [List.cons_append, List.nil_append] at heq
          have hx : x = DBOp.writeBestBlock h := (List.cons.injEq _ _ _ _ ▸ heq).1
          rw [hx] at ha
          simp [DBOp.isEntryOp] at ha
      | cons p ps =>
          simp only [List.cons_append] at heq
          have h2 : xs ++ [DBOp.writeBestBlock h0] = ps ++ DBOp.writeBestBlock h :: suf :=
            (List.cons.injEq _ _ _ _ ▸ heq).2
          exact ih ha.2 ps h suf h2

/-- A trace of entry operations only contains no best-block write at all. -/
theorem entryOps_no_bb (a : List DBOp) (ha : a.all DBOp.isEntryOp = true) :
    ∀ pre h suf, a ≠ pre ++ DBOp.writeBestBlock h :: suf := by
  intro pre h suf heq
  have hmem : DBOp.writeBestBlock h ∈ a := by
    rw [heq]
    exact List.mem_append_right _ (List.mem_cons_self _ _)
  rw [List.all_eq_true] at ha
  have := ha _ hmem
  simp [DBOp.isEntryOp] at this

/-- C5 counterexample: flushing a single dirty entry with a best-block hash and
a roomy batch threshold writes the best-block hash first and commits the entry
write only afterwards (the final `db.WriteBatch` at `slpdb.cpp:120` runs after
`_WriteBestBlock` at lines 117-118), so the claimed ordering fails. -/
theorem batchWrite_bestblock_ctrex :
    batchWriteTrace (fun l => l.length) 10 [(1, tokEntryW)] (some 9) =
      [DBOp.writeBestBlock 9, DBOp.writeTok 1 7] ∧
    ¬ bestBlockAfterWrites (batchWriteTrace (fun l => l.length) 10 [(1, tokEntryW)] (some 9)) := by
  constructor
  · rfl
  · intro h
    have h2 := h [] 9 [DBOp.writeTok 1 7] (by rfl)
    simp [DBOp.isEntryOp] at h2

/-- C5 (amended): the trace of `BatchWrite` is exactly the loop-committed
fragments, then the optional best-block write, then the final commit of the
pending batch; the best-block write therefore follows every fragment flushed
inside the loop but precedes the final pending fragment, and the claimed
ordering (no token write after the best-block write) holds exactly in the runs
whose final pending batch is empty. -/
theorem batchWrite_bestblock_order (estimate : List DBOp → Nat) (thr : Nat)
    (m : List (Nat × TokenCacheEntry)) (hb : Option Nat) :
    (batchWriteTrace estimate thr m hb =
      (batchWriteLoop estimate thr m [] []).1 ++
        (match hb with | some h => [DBOp.writeBestBlock h] | none => []) ++
        (batchWriteLoop estimate thr m [] []).2) ∧
    ((batchWriteLoop estimate thr m [] []).1.all DBOp.isEntryOp = true ∧
      (batchWriteLoop estimate thr m [] []).2.all DBOp.isEntryOp = true) ∧
    ((batchWriteLoop estimate thr m [] []).2 = [] →
      bestBlockAfterWrites (batchWriteTrace estimate thr m hb)) := by
  have hall := batchWriteLoop_entryOps estimate thr m [] [] (by simp) (by simp)
  refine ⟨rfl, hall, ?_⟩
  intro hpend
  intro pre h suf heq
  unfold batchWriteTrace at heq
  rw [hpend] at heq
  cases hb with
  | none =>
      simp only [List.append_nil] at heq
      exact absurd heq (entryOps_no_bb _ hall.1 pre h suf)
  | some h0 =>
      simp only [List.append_nil] at heq
      have := entryOps_bb_split _ h0 hall.1 pre h suf (by simpa using heq)
      simp [this]

/-- Witness for `batchWrite_bestblock_order`: with a zero batch threshold the
single dirty entry is flushed inside the loop, the pending batch is empty, and
the best-block write does come last. -/
theorem batchWrite_bestblock_order_witness :
    (batchWriteLoop (fun l => l.length) 0 [(1, tokEntryW)] [] []).2 = [] ∧
    bestBlockAfterWrites (batchWriteTrace (fun l => l.length) 0 [(1, tokEntryW)] (some 9)) :=
  ⟨rfl, (batchWrite_bestblock_order (fun l => l.length) 0 [(1, tokEntryW)] (some 9)).2.2 rfl⟩

/-! ## C8 — template determinism -/

/-- C8 counterexample: `CreateNewSubBlock` reads the wall clock
(`GetAdjustedTime` at `subblock_miner.cpp:218`, `UpdateTime` at line 269), so
two runs over the very same mempool snapshot, chain tip, DAG tips and
configuration — ten seconds apart — emit templates that differ (in the header
`nTime`); the template is not a function of the inputs named by the claim. -/
theorem createNewSubBlock_clock_ctrex :
    (createNewSubBlock envA chainA [] [] [9] 5 10).header.nTime = 10 ∧
    (createNewSubBlock envA chainA [] [] [9] 5 20).header.nTime = 20 ∧
    createNewSubBlock envA chainA [] [] [9] 5 10 ≠ createNewSubBlock envA chainA [] [] [9] 5 20 := by
  refine ⟨rfl, rfl, ?_⟩
  intro h
  have h2 : (createNewSubBlock envA chainA [] [] [9] 5 10).header.nTime =
      (createNewSubBlock envA chainA [] [] [9] 5 20).header.nTime := by rw [h]
  rw [show (createNewSubBlock envA chainA [] [] [9] 5 10).header.nTime = 10 from rfl] at h2
  rw [show (createNewSubBlock envA chainA [] [] [9] 5 20).header.nTime = 20 from rfl] at h2
  exact absurd h2 (by decide)

/-- C8 (amended): with the clock reading included among the inputs, assembly is
deterministic — two runs over the same mempool snapshot, chain state,
configuration and equal clock readings produce identical templates. -/
theorem createNewSubBlock_deterministic (env : MinerEnv) (chain : ChainEnv)
    (pool : List MemEntry) (tips s : List Nat) (fuel c₁ c₂ : Nat) (h : c₁ = c₂) :
    createNewSubBlock env chain pool tips s fuel c₁ =
      createNewSubBlock env chain pool tips s fuel c₂ := by
  rw [h]

/-- Witness for `createNewSubBlock_deterministic` at concrete inputs. -/
theorem createNewSubBlock_deterministic_witness :
    createNewSubBlock envA chainA poolB [9] [7] 5 10 =
      createNewSubBlock envA chainA poolB [9] [7] 5 10 :=
  createNewSubBlock_deterministic envA chainA poolB [9] [7] 5 10 10 rfl

/-- Unfolding equation for `addPackageTxsLoop` at a cons cell. -/
theorem addPackageTxsLoop_cons (env : MinerEnv) (pool : List MemEntry) (e : MemEntry)
    (rest : List MemEntry) (st : BlkState) (fails : Nat) :
    addPackageTxsLoop env pool (e :: rest) st fails =
      match packageCandidateStep env pool e st fails with
      | .ret st2 _ => st2
      | .cont st2 f2 => addPackageTxsLoop env pool rest st2 f2 := rfl

/-! ## C3 — package failure counter -/

/-- C3: when a candidate package does not fit, the failure counter is bumped
only while the block is more than half full (`nBlockSize > nBlockMaxSize * .50`),
the selector returns exactly when the counter reaches
`MAX_PACKAGE_FAILURES = 5` (from a reachable counter value, i.e. at most 4),
and at or below half full the oversized package is skipped without ever
triggering the bail-out. -/
theorem addPackageTxs_failure_counter (env : MinerEnv) (pool : List MemEntry) (e : MemEntry)
    (st : BlkState) (fails : Nat) (rest : List MemEntry)
    (hskip : st.inBlock.contains e.id = false)
    (hfee : ¬(e.modFeesWithAncestors < env.minRelayGetFee (packageSizeSigOps pool st e).1 ∧
      st.nBlockSize ≥ env.nBlockMinSize))
    (hfit : st.nBlockSize + (packageSizeSigOps pool st e).1 > env.nBlockMaxSize)
    (hf : fails ≤ 4) :
    (packageCandidateStep env pool e st fails =
      if 2 * st.nBlockSize > env.nBlockMaxSize then
        (if fails = 4 then PkgOutcome.ret st 5 else PkgOutcome.cont st (fails + 1))
      else PkgOutcome.cont st fails) ∧
    (2 * st.nBlockSize ≤ env.nBlockMaxSize →
      addPackageTxsLoop env pool (e :: rest) st fails =
        addPackageTxsLoop env pool rest st fails) ∧
    (2 * st.nBlockSize > env.nBlockMaxSize → fails = 4 →
      addPackageTxsLoop env pool (e :: rest) st fails = st) := by
  have hstep : packageCandidateStep env pool e st fails =
      packageFitPhase env (packageEntries pool (packageAncestorIds pool st e)) st fails
        (packageSizeSigOps pool st e).1 (packageSizeSigOps pool st e).2 := by
    simp only [packageCandidateStep, hskip, Bool.false_eq_true, if_false, if_neg hfee]
  have hphase : packageCandidateStep env pool e st fails =
      if 2 * st.nBlockSize > env.nBlockMaxSize then
        (if fails = 4 then PkgOutcome.ret st 5 else PkgOutcome.cont st (fails + 1))
      else PkgOutcome.cont st fails := by
    rw [hstep]
    unfold packageFitPhase
    rw [if_pos hfit]
    by_cases hhalf : 2 * st.nBlockSize > env.nBlockMaxSize
    · rw [if_pos hhalf, if_pos hhalf]
      by_cases h4 : fails = 4
      · subst h4
        rw [if_pos (by norm_num [MAX_PACKAGE_FAILURES]), if_pos rfl]
      · rw [if_neg (by unfold MAX_PACKAGE_FAILURES; omega), if_neg h4]
    · rw [if_neg hhalf, if_neg hhalf]
      rw [if_neg (by unfold MAX_PACKAGE_FAILURES; omega)]
  refine ⟨hphase, ?_, ?_⟩
  · intro hle
    have hcont : packageCandidateStep env pool e st fails = PkgOutcome.cont st fails := by
      rw [hphase, if_neg (by omega)]
    rw [addPackageTxsLoop_cons, hcont]
  · intro hhalf h4
    have hret : packageCandidateStep env pool e st fails = PkgOutcome.ret st 5 := by
      rw [hphase, if_pos hhalf, if_pos h4]
    rw [addPackageTxsLoop_cons, hret]

/-- Witness for `addPackageTxs_failure_counter`: an oversize package 60 bytes
into a 100-byte block (more than half full) bumps the counter from 0 to 1 and
the loop continues. -/
theorem addPackageTxs_failure_counter_witness :
    packageCandidateStep envB [] entry3 stW 0 = PkgOutcome.cont stW 1 := by
  have h := addPackageTxs_failure_counter envB [] entry3 stW 0 []
    (by decide) (by decide) (by decide) (by decide)
  rw [h.1]
  rw [if_pos (by decide), if_neg (by decide)]

/-! ## C4 — relay-floor early termination -/

/-- C4: a candidate whose package fee is below the relay floor for the
(possibly recomputed) package size makes the selector return at once — with
the state unchanged, so nothing further is added in the fee phase — provided
the block has reached `nBlockMinSize`; below `nBlockMinSize` the early return
is suppressed and the candidate proceeds to the ordinary fit phase. -/
theorem addPackageTxs_relay_floor (env : MinerEnv) (pool : List MemEntry) (e : MemEntry)
    (st : BlkState) (fails : Nat) (rest : List MemEntry)
    (hskip : st.inBlock.contains e.id = false)
    (hfee : e.modFeesWithAncestors < env.minRelayGetFee (packageSizeSigOps pool st e).1) :
    (st.nBlockSize ≥ env.nBlockMinSize →
      packageCandidateStep env pool e st fails = PkgOutcome.ret st fails ∧
      addPackageTxsLoop env pool (e :: rest) st fails = st) ∧
    (st.nBlockSize < env.nBlockMinSize →
      packageCandidateStep env pool e st fails =
        packageFitPhase env (packageEntries pool (packageAncestorIds pool st e)) st fails
          (packageSizeSigOps pool st e).1 (packageSizeSigOps pool st e).2) := by
  constructor
  · intro hmin
    have hstep : packageCandidateStep env pool e st fails = PkgOutcome.ret st fails := by
      simp only [packageCandidateStep, hskip, Bool.false_eq_true, if_false,
        if_pos (And.intro hfee hmin)]
    refine ⟨hstep, ?_⟩
    rw [addPackageTxsLoop_cons, hstep]
  · intro hmin
    simp only [packageCandidateStep, hskip, Bool.false_eq_true, if_false,
      if_neg (show ¬(e.modFeesWithAncestors < env.minRelayGetFee (packageSizeSigOps pool st e).1 ∧
        st.nBlockSize ≥ env.nBlockMinSize) from fun hc => absurd hc.2 (by omega))]

/-- Witness for `addPackageTxs_relay_floor`: a zero-fee candidate against a
1000-satoshi relay floor in a block past its minimum size ends the fee phase
with nothing added. -/
theorem addPackageTxs_relay_floor_witness :
    addPackageTxsLoop envD [] [entry3] stW 0 = stW :=
  ((addPackageTxs_relay_floor envD [] entry3 stW 0 [] (by decide) (by decide)).1 (by decide)).2

/-! ## Infrastructure for the selection invariant (C2, C7) -/

theorem natContains_iff (l : List Nat) (a : Nat) : l.contains a = true ↔ a ∈ l := by
  simp [List.contains]

theorem isStillDependent_false_iff (st : BlkState) (e : MemEntry) :
    isStillDependent st e = false ↔ ∀ p ∈ e.parents, p ∈ st.inBlock := by
  unfold isStillDependent
  simp [natContains_iff]

theorem popMaxBy_mem {α : Type} (key : α → Int) :
    ∀ (l : List α) (e : α) (rest : List α), popMaxBy key l = some (e, rest) →
      e ∈ l ∧ ∀ x ∈ rest, x ∈ l := by
  intro l
  induction l with
  | nil => intro e rest h; cases h
  | cons x xs ih =>
      intro e rest h
      unfold popMaxBy at h
      cases hm : popMaxBy key xs with
      | none =>
          rw [hm] at h
          cases h
          exact ⟨List.mem_cons_self _ _, by intro y hy; cases hy⟩
      | some mr =>
          obtain ⟨m, r⟩ := mr
          rw [hm] at h
          dsimp only at h
          by_cases hk : key x < key m
          · rw [if_pos hk] at h
            simp only [Option.some.injEq, Prod.mk.injEq] at h
            obtain ⟨he, hr⟩ := h
            subst he
            subst hr
            have hmr := ih m r hm
            constructor
            · exact List.mem_cons_of_mem _ hmr.1
            · intro y hy
              cases hy with
              | head => exact List.mem_cons_self _ _
              | tail _ hy2 => exact List.mem_cons_of_mem _ (hmr.2 y hy2)
          · rw [if_neg hk] at h
            simp only [Option.some.injEq, Prod.mk.injEq] at h
            obtain ⟨he, hr⟩ := h
            subst he
            subst hr
            exact ⟨List.mem_cons_self _ _, fun y hy => List.mem_cons_of_mem _ hy⟩

theorem poolFind_mem {pool : List MemEntry} {i : Nat} {a : MemEntry}
    (h : poolFind pool i = some a) : a ∈ pool ∧ a.id = i := by
  unfold poolFind at h
  refine ⟨List.mem_of_find?_eq_some h, ?_⟩
  have := List.find?_some h
  simpa using this

theorem poolFind_isSome {pool : List MemEntry} {i : Nat}
    (h : ∃ b ∈ pool, b.id = i) : ∃ a, poolFind pool i = some a := by
  unfold poolFind
  obtain ⟨b, hb, hbi⟩ := h
  have : (pool.find? (fun e => e.id == i)).isSome = true := by
    rw [List.find?_isSome]
    exact ⟨b, hb, by simp [hbi]⟩
  obtain ⟨a, ha⟩ := Option.isSome_iff_exists.mp this
  exact ⟨a, ha⟩

theorem pool_id_inj {pool : List MemEntry} (hnd : (pool.map MemEntry.id).Nodup)
    {a b : MemEntry} (ha : a ∈ pool) (hb : b ∈ pool) (hab : a.id = b.id) : a = b :=
  List.inj_on_of_nodup_map hnd ha hb hab

theorem parentsOf_eq {pool : List MemEntry} {a : MemEntry}
    (h : poolFind pool a.id = some a) : parentsOf pool a.id = a.parents := by
  unfold parentsOf
  rw [h]
  rfl

theorem restSum_cons_entry (hd : MemEntry) (tl : List MemEntry) (acc : List Nat) :
    restSum (hd :: tl) acc =
      (if acc.contains hd.id then 0 else hd.parents.length) + restSum tl acc := by
  unfold restSum
  by_cases hc : acc.contains hd.id
  · rw [if_pos hc, List.filter_cons_of_neg (by simp only [Bool.not_eq_true', Bool.not_eq_false]; exact hc)]
    simp
  · rw [if_neg hc, List.filter_cons_of_pos (by simp only [Bool.not_eq_true']; exact Bool.eq_false_iff.mpr hc)]
    simp

theorem restSum_mono (pool : List MemEntry) (x : Nat) (acc : List Nat) :
    restSum pool (x :: acc) ≤ restSum pool acc := by
  induction pool with
  | nil => simp [restSum]
  | cons hd tl ih =>
      rw [restSum_cons_entry, restSum_cons_entry]
      have hcc : acc.contains hd.id = true → (x :: acc).contains hd.id = true := by
        intro h
        rw [natContains_iff] at *
        exact List.mem_cons_of_mem _ h
      by_cases hc : acc.contains hd.id
      · rw [if_pos hc, if_pos (hcc hc)]
        omega
      · rw [if_neg hc]
        by_cases hc2 : (x :: acc).contains hd.id
        · rw [if_pos hc2]
          omega
        · rw [if_neg hc2]
          omega

theorem restSum_cons_add (pool : List MemEntry) (x : Nat) (acc : List Nat)
    (hx : ¬ x ∈ acc) :
    restSum pool (x :: acc) + (parentsOf pool x).length ≤ restSum pool acc := by
  induction pool with
  | nil =>
      simp [restSum, parentsOf, poolFind]
  | cons hd tl ih =>
      rw [restSum_cons_entry, restSum_cons_entry]
      by_cases hid : hd.id = x
      · have hp : parentsOf (hd :: tl) x = hd.parents := by
          unfold parentsOf poolFind
          rw [List.find?_cons_of_pos _ (by simp [hid])]
          rfl
        have hc1 : (x :: acc).contains hd.id = true := by
          rw [natContains_iff, hid]
          exact List.mem_cons_self _ _
        have hc2 : ¬ acc.contains hd.id = true := by
          rw [natContains_iff, hid]
          exact hx
        rw [hp, if_pos hc1, if_neg hc2]
        have := restSum_mono tl x acc
        omega
      · have hp : parentsOf (hd :: tl) x = parentsOf tl x := by
          unfold parentsOf poolFind
          rw [List.find?_cons_of_neg _ (by simp [hid])]
        have hc : (x :: acc).contains hd.id = acc.contains hd.id := by
          rw [List.contains_cons]
          have h3 : (hd.id == x) = false := by simp [hid]
          rw [h3, Bool.false_or]
        rw [hp, hc]
        by_cases h2 : acc.contains hd.id
        · rw [if_pos h2]
          omega
        · rw [if_neg h2]
          omega

theorem ancWalk_zero (pool : List MemEntry) (stopIds frontier acc : List Nat) :
    ancWalk pool stopIds 0 frontier acc = acc := rfl

theorem ancWalk_fuel_nil (pool : List MemEntry) (stopIds acc : List Nat) (fuel : Nat) :
    ancWalk pool stopIds (fuel + 1) [] acc = acc := rfl

theorem ancWalk_cons (pool : List MemEntry) (stopIds : List Nat) (fuel x : Nat)
    (rest acc : List Nat) :
    ancWalk pool stopIds (fuel + 1) (x :: rest) acc =
      if (acc.contains x || stopIds.contains x) = true then
        ancWalk pool stopIds fuel rest acc
      else ancWalk pool stopIds fuel (parentsOf pool x ++ rest) (x :: acc) := rfl

/-- Closure of the fuel-indexed ancestor walk: with fuel at least the pending
frontier plus the total parent-list mass of unvisited pool entries, the walk
completes — every collected id has all its parents collected or stopped, every
frontier id ends up collected or stopped, and the accumulator only grows. -/
theorem ancWalk_closed (pool : List MemEntry) (stopIds : List Nat) :
    ∀ (fuel : Nat) (frontier acc : List Nat),
      frontier.length + restSum pool acc ≤ fuel →
      (∀ a ∈ acc, ∀ p ∈ parentsOf pool a, p ∈ acc ∨ p ∈ stopIds ∨ p ∈ frontier) →
      (∀ a ∈ ancWalk pool stopIds fuel frontier acc, ∀ p ∈ parentsOf pool a,
          p ∈ ancWalk pool stopIds fuel frontier acc ∨ p ∈ stopIds) ∧
      (∀ y ∈ frontier, y ∈ ancWalk pool stopIds fuel frontier acc ∨ y ∈ stopIds) ∧
      (∀ a ∈ acc, a ∈ ancWalk pool stopIds fuel frontier acc) := by
  intro fuel
  induction fuel with
  | zero =>
      intro frontier acc hb hpre
      have hf : frontier = [] := by
        have : frontier.length = 0 := by omega
        exact List.eq_nil_of_length_eq_zero this
      subst hf
      rw [ancWalk_zero]
      refine ⟨?_, ?_, ?_⟩
      · intro a ha p hp
        rcases hpre a ha p hp with h | h | h
        · exact Or.inl h
        · exact Or.inr h
        · cases h
      · intro y hy
        cases hy
      · intro a ha
        exact ha
  | succ fuel ih =>
      intro frontier acc hb hpre
      cases frontier with
      | nil =>
          rw [ancWalk_fuel_nil]
          refine ⟨?_, ?_, ?_⟩
          · intro a ha p hp
            rcases hpre a ha p hp with h | h | h
            · exact Or.inl h
            · exact Or.inr h
            · cases h
          · intro y hy
            cases hy
          · intro a ha
            exact ha
      | cons x rest =>
          by_cases hx : (acc.contains x || stopIds.contains x) = true
          · rw [ancWalk_cons, if_pos hx]
            have hxm : x ∈ acc ∨ x ∈ stopIds := by
              rw [Bool.or_eq_true] at hx
              rcases hx with h | h
              · exact Or.inl ((natContains_iff _ _).mp h)
              · exact Or.inr ((natContains_iff _ _).mp h)
            have hb2 : rest.length + restSum pool acc ≤ fuel := by
              simp only [List.length_cons] at hb
              omega
            have hpre2 : ∀ a ∈ acc, ∀ p ∈ parentsOf pool a,
                p ∈ acc ∨ p ∈ stopIds ∨ p ∈ rest := by
              intro a ha p hp
              rcases hpre a ha p hp with h | h | h
              · exact Or.inl h
              · exact Or.inr (Or.inl h)
              · cases h with
                | head =>
                    rcases hxm with h2 | h2
                    · exact Or.inl h2
                    · exact Or.inr (Or.inl h2)
                | tail _ h2 => exact Or.inr (Or.inr h2)
            obtain ⟨hc, hf, hacc⟩ := ih rest acc hb2 hpre2
            refine ⟨hc, ?_, hacc⟩
            intro y hy
            cases hy with
            | head =>
                rcases hxm with h2 | h2
                · exact Or.inl (hacc _ h2)
                · exact Or.inr h2
            | tail _ h2 => exact hf y h2
          · rw [ancWalk_cons, if_neg hx]
            have hxa : ¬ x ∈ acc := by
              intro h
              rw [Bool.or_eq_true] at hx
              exact hx (Or.inl ((natContains_iff _ _).mpr h))
            have hb2 : (parentsOf pool x ++ rest).length + restSum pool (x :: acc) ≤ fuel := by
              have := restSum_cons_add pool x acc hxa
              simp only [List.length_cons] at hb
              rw [List.length_append]
              omega
            have hpre2 : ∀ a ∈ x :: acc, ∀ p ∈ parentsOf pool a,
                p ∈ x :: acc ∨ p ∈ stopIds ∨ p ∈ parentsOf pool x ++ rest := by
              intro a ha p hp
              cases ha with
              | head =>
                  exact Or.inr (Or.inr (List.mem_append_left _ hp))
              | tail _ h2 =>
                  rcases hpre a h2 p hp with h | h | h
                  · exact Or.inl (List.mem_cons_of_mem _ h)
                  · exact Or.inr (Or.inl h)
                  · cases h with
                    | head => exact Or.inl (List.mem_cons_self _ _)
                    | tail _ h3 => exact Or.inr (Or.inr (List.mem_append_right _ h3))
            obtain ⟨hc, hf, hacc⟩ := ih (parentsOf pool x ++ rest) (x :: acc) hb2 hpre2
            refine ⟨hc, ?_, ?_⟩
            · intro y hy
              cases hy with
              | head => exact Or.inl (hacc _ (List.mem_cons_self _ _))
              | tail _ h2 => exact hf y (List.mem_append_right _ h2)
            · intro a ha
              exact hacc _ (List.mem_cons_of_mem _ ha)

/-- Closure of `calcAncestorIds`: the collected ancestors are parent-closed up
to the stop set, and the candidate's direct parents are collected or stopped. -/
theorem calcAncestorIds_closed (pool : List MemEntry) (stopIds : List Nat) (e : MemEntry) :
    (∀ a ∈ calcAncestorIds pool stopIds e, ∀ p ∈ parentsOf pool a,
        p ∈ calcAncestorIds pool stopIds e ∨ p ∈ stopIds) ∧
    (∀ p ∈ e.parents, p ∈ calcAncestorIds pool stopIds e ∨ p ∈ stopIds) := by
  have h := ancWalk_closed pool stopIds (walkFuel pool e) e.parents []
    (by unfold walkFuel; omega) (by intro a ha; cases ha)
  exact ⟨h.1, h.2.1⟩

theorem isIncrementallyGood_frame (env : MinerEnv) (st : BlkState) (a b : Nat) :
    (isIncrementallyGood env st a b).1.inBlock = st.inBlock ∧
    (isIncrementallyGood env st a b).1.vtxe = st.vtxe ∧
    (isIncrementallyGood env st a b).1.nFees = st.nFees := by
  unfold isIncrementallyGood
  split_ifs <;> exact ⟨rfl, rfl, rfl⟩

theorem testForBlock_frame (env : MinerEnv) (st : BlkState) (e : MemEntry) :
    (testForBlock env st e).1.inBlock = st.inBlock ∧
    (testForBlock env st e).1.vtxe = st.vtxe ∧
    (testForBlock env st e).1.nFees = st.nFees := by
  have h : (testForBlock env st e).1 = (isIncrementallyGood env st e.size e.sigOps).1 := by
    unfold testForBlock
    dsimp only
    split_ifs <;> rfl
  rw [h]
  exact isIncrementallyGood_frame env st e.size e.sigOps

theorem foldl_addToBlock_vtxe (l : List MemEntry) :
    ∀ st : BlkState, (l.foldl addToBlock st).vtxe = st.vtxe ++ l := by
  induction l with
  | nil => intro st; simp
  | cons e tl ih =>
      intro st
      rw [List.foldl_cons, ih]
      simp [addToBlock]

theorem foldl_addToBlock_inBlock (l : List MemEntry) :
    ∀ (st : BlkState) (i : Nat),
      i ∈ (l.foldl addToBlock st).inBlock ↔ i ∈ st.inBlock ∨ i ∈ l.map MemEntry.id := by
  induction l with
  | nil => intro st i; simp
  | cons e tl ih =>
      intro st i
      rw [List.foldl_cons, ih]
      simp only [addToBlock, List.map_cons, List.mem_cons]
      constructor
      · intro h
        rcases h with h | h
        · rcases h with h | h
          · exact Or.inr (Or.inl h)
          · exact Or.inl h
        · exact Or.inr (Or.inr h)
      · intro h
        rcases h with h | h
        · exact Or.inl (Or.inr h)
        · rcases h with h | h
          · exact Or.inl (Or.inl h)
          · exact Or.inr h

theorem foldl_addToBlock_nFees (l : List MemEntry) :
    ∀ st : BlkState, (l.foldl addToBlock st).nFees = st.nFees + (l.map MemEntry.fee).sum := by
  induction l with
  | nil => intro st; simp
  | cons e tl ih =>
      intro st
      rw [List.foldl_cons, ih]
      simp [addToBlock]
      ring

theorem stInv_initState (pool : List MemEntry) (env : MinerEnv) :
    stInv pool (initState env) := by
  unfold stInv initState
  refine ⟨?_, ?_, ?_, ?_⟩ <;> simp

theorem stInv_addToBlock {pool : List MemEntry} {st : BlkState} {e : MemEntry}
    (hinv : stInv pool st) (he : e ∈ pool) (hp : ∀ p ∈ e.parents, p ∈ st.inBlock) :
    stInv pool (addToBlock st e) := by
  obtain ⟨h1, h2, h3, h4⟩ := hinv
  refine ⟨?_, ?_, ?_, ?_⟩
  · intro a ha
    simp only [addToBlock, List.mem_append, List.mem_singleton] at ha
    rcases ha with ha | ha
    · exact h1 a ha
    · rw [ha]; exact he
  · intro i
    simp only [addToBlock, List.mem_cons, List.map_append, List.mem_append, List.map_cons,
      List.map_nil, List.mem_singleton]
    rw [h2 i]
    tauto
  · intro a ha p hpp
    simp only [addToBlock, List.mem_append, List.mem_singleton] at ha
    simp only [addToBlock, List.mem_cons]
    rcases ha with ha | ha
    · exact Or.inr (h3 a ha p hpp)
    · rw [ha] at hpp
      exact Or.inr (hp p hpp)
  · simp only [addToBlock, List.map_append, List.sum_append]
    simp [h4]

theorem packageEntries_mem {pool : List MemEntry} {ids : List Nat} {a : MemEntry}
    (h : a ∈ packageEntries pool ids) :
    a ∈ pool ∧ a.id ∈ ids ∧ poolFind pool a.id = some a := by
  unfold packageEntries at h
  rw [mem_sortByKey] at h
  rw [List.mem_filterMap] at h
  obtain ⟨i, hi, hfind⟩ := h
  obtain ⟨hmem, hid⟩ := poolFind_mem hfind
  subst hid
  exact ⟨hmem, hi, hfind⟩

theorem packageEntries_id_mem {pool : List MemEntry} {ids : List Nat} {p : Nat}
    (hids : p ∈ ids) (hpool : p ∈ pool.map MemEntry.id) :
    p ∈ (packageEntries pool ids).map MemEntry.id := by
  rw [List.mem_map] at hpool
  obtain ⟨b, hb, hbid⟩ := hpool
  obtain ⟨a, ha⟩ := poolFind_isSome ⟨b, hb, hbid⟩
  have hai := (poolFind_mem ha).2
  rw [List.mem_map]
  refine ⟨a, ?_, hai⟩
  unfold packageEntries
  rw [mem_sortByKey, List.mem_filterMap]
  exact ⟨p, hids, ha⟩

theorem packageAncestorIds_sub {pool : List MemEntry} {st : BlkState} {e : MemEntry} :
    calcAncestorIds pool st.inBlock e ⊆ packageAncestorIds pool st e := by
  unfold packageAncestorIds
  by_cases h : (calcAncestorIds pool st.inBlock e).contains e.id
  · rw [if_pos h]
    exact fun x hx => hx
  · rw [if_neg h]
    exact fun x hx => List.mem_cons_of_mem _ hx

theorem packageAncestorIds_cases {pool : List MemEntry} {st : BlkState} {e : MemEntry}
    {i : Nat} (h : i ∈ packageAncestorIds pool st e) :
    i ∈ calcAncestorIds pool st.inBlock e ∨ i = e.id := by
  unfold packageAncestorIds at h
  by_cases h2 : (calcAncestorIds pool st.inBlock e).contains e.id
  · rw [if_pos h2] at h
    exact Or.inl h
  · rw [if_neg h2] at h
    cases h with
    | head => exact Or.inr rfl
    | tail _ h3 => exact Or.inl h3

/-- Parent-closure of a committed package: every member's mempool parents are
already in the block or belong to the package itself. -/
theorem package_parents_closed {pool : List MemEntry} (st : BlkState) {e : MemEntry}
    (hwf : poolWF pool) (he : e ∈ pool) :
    ∀ a ∈ packageEntries pool (packageAncestorIds pool st e), ∀ p ∈ a.parents,
      p ∈ st.inBlock ∨
      p ∈ (packageEntries pool (packageAncestorIds pool st e)).map MemEntry.id := by
  intro a ha p hp
  obtain ⟨hapool, haid, hafind⟩ := packageEntries_mem ha
  have hclo := calcAncestorIds_closed pool st.inBlock e
  have hppool : p ∈ pool.map MemEntry.id := hwf.2 a hapool p hp
  have hstep : p ∈ calcAncestorIds pool st.inBlock e ∨ p ∈ st.inBlock := by
    rcases packageAncestorIds_cases haid with h | h
    · have := hclo.1 a.id h p (by rw [parentsOf_eq hafind]; exact hp)
      tauto
    · have hae : a = e := pool_id_inj hwf.1 hapool he h
      have := hclo.2 p (by rw [← hae]; exact hp)
      tauto
  rcases hstep with h | h
  · exact Or.inr (packageEntries_id_mem (packageAncestorIds_sub h) hppool)
  · exact Or.inl h

/-- The whole-package commit preserves the selection invariant. -/
theorem stInv_commit {pool : List MemEntry} {st : BlkState} {e : MemEntry}
    (hwf : poolWF pool) (he : e ∈ pool) (hinv : stInv pool st) :
    stInv pool ((packageEntries pool (packageAncestorIds pool st e)).foldl addToBlock st) := by
  obtain ⟨h1, h2, h3, h4⟩ := hinv
  have hpar := package_parents_closed st hwf he
  refine ⟨?_, ?_, ?_, ?_⟩
  · intro a ha
    rw [foldl_addToBlock_vtxe, List.mem_append] at ha
    rcases ha with ha | ha
    · exact h1 a ha
    · exact (packageEntries_mem ha).1
  · intro i
    rw [foldl_addToBlock_inBlock, foldl_addToBlock_vtxe, List.map_append, List.mem_append,
      h2 i]
  · intro a ha p hp
    rw [foldl_addToBlock_vtxe, List.mem_append] at ha
    rw [foldl_addToBlock_inBlock]
    rcases ha with ha | ha
    · exact Or.inl (h3 a ha p hp)
    · rcases hpar a ha p hp with h | h
      · exact Or.inl h
      · exact Or.inr h
  · rw [foldl_addToBlock_nFees, foldl_addToBlock_vtxe, List.map_append, List.sum_append, h4]

/-- One package-selector candidate preserves the selection invariant, whatever
the outcome. -/
theorem stInv_packageStep (env : MinerEnv) {pool : List MemEntry} {e : MemEntry}
    {st : BlkState} (fails : Nat) (hwf : poolWF pool) (he : e ∈ pool)
    (hinv : stInv pool st) :
    ∀ st2 f2, (packageCandidateStep env pool e st fails = .ret st2 f2 → stInv pool st2) ∧
      (packageCandidateStep env pool e st fails = .cont st2 f2 → stInv pool st2) := by
  intro st2 f2
  unfold packageCandidateStep
  by_cases hskip : st.inBlock.contains e.id = true
  · rw [if_pos hskip]
    constructor
    · intro h; cases h
    · intro h; cases h; exact hinv
  · rw [if_neg hskip]
    by_cases hfee : e.modFeesWithAncestors <
        env.minRelayGetFee (packageSizeSigOps pool st e).1 ∧
        st.nBlockSize ≥ env.nBlockMinSize
    · rw [if_pos hfee]
      constructor
      · intro h; cases h; exact hinv
      · intro h; cases h
    · rw [if_neg hfee]
      unfold packageFitPhase
      by_cases hfit : st.nBlockSize + (packageSizeSigOps pool st e).1 > env.nBlockMaxSize
      · rw [if_pos hfit]
        by_cases h5 : (if 2 * st.nBlockSize > env.nBlockMaxSize then fails + 1 else fails) ≥
            MAX_PACKAGE_FAILURES
        · rw [if_pos h5]
          constructor
          · intro h; cases h; exact hinv
          · intro h; cases h
        · rw [if_neg h5]
          constructor
          · intro h; cases h
          · intro h; cases h; exact hinv
      · rw [if_neg hfit]
        by_cases hso : (!testPackageSigOps env st (packageSizeSigOps pool st e).1
            (packageSizeSigOps pool st e).2) = true
        · rw [if_pos hso]
          constructor
          · intro h; cases h
          · intro h; cases h; exact hinv
        · rw [if_neg hso]
          by_cases hfin : (!testPackageFinality env
              (packageEntries pool (packageAncestorIds pool st e))) = true
          · rw [if_pos hfin]
            constructor
            · intro h; cases h
            · intro h; cases h; exact hinv
          · rw [if_neg hfin]
            constructor
            · intro h; cases h
            · intro h
              cases h
              exact stInv_commit hwf he hinv

/-- The package-selector loop preserves the selection invariant. -/
theorem stInv_addPackageTxsLoop (env : MinerEnv) {pool : List MemEntry}
    (hwf : poolWF pool) :
    ∀ (lst : List MemEntry) (st : BlkState) (fails : Nat),
      (∀ x ∈ lst, x ∈ pool) → stInv pool st →
      stInv pool (addPackageTxsLoop env pool lst st fails) := by
  intro lst
  induction lst with
  | nil => intro st fails _ hinv; exact hinv
  | cons e rest ih =>
      intro st fails hsub hinv
      rw [addPackageTxsLoop_cons]
      have hstep := stInv_packageStep env fails hwf (hsub e (List.mem_cons_self _ _)) hinv
      cases hout : packageCandidateStep env pool e st fails with
      | ret st2 f2 => exact (hstep st2 f2).1 hout
      | cont st2 f2 =>
          exact ih st2 f2 (fun x hx => hsub x (List.mem_cons_of_mem _ hx))
            ((hstep st2 f2).2 hout)

/-- The priority-selector loop preserves the selection invariant. -/
theorem stInv_priLoop (env : MinerEnv) {pool : List MemEntry} (prioSize : Nat) :
    ∀ (fuel : Nat) (vecPri waitPri : List MemEntry) (st : BlkState),
      (∀ x ∈ vecPri, x ∈ pool) → (∀ x ∈ waitPri, x ∈ pool) → stInv pool st →
      stInv pool (priLoop env prioSize fuel vecPri waitPri st) := by
  intro fuel
  induction fuel with
  | zero => intro vecPri waitPri st _ _ hinv; exact hinv
  | succ fuel ih =>
      intro vecPri waitPri st hvec hwait hinv
      unfold priLoop
      by_cases hfin : st.blockFinished = true
      · rw [if_pos hfin]; exact hinv
      · rw [if_neg hfin]
        cases hpop : popMaxBy MemEntry.priorityKey vecPri with
        | none => exact hinv
        | some er =>
            obtain ⟨e, rest⟩ := er
            obtain ⟨hemem, hrest⟩ := popMaxBy_mem MemEntry.priorityKey vecPri e rest hpop
            have he : e ∈ pool := hvec e hemem
            have hrest2 : ∀ x ∈ rest, x ∈ pool := fun x hx => hvec x (hrest x hx)
            dsimp only
            by_cases hskip : st.inBlock.contains e.id = true
            · rw [if_pos hskip]
              exact ih rest waitPri st hrest2 hwait hinv
            · rw [if_neg hskip]
              by_cases hdep : isStillDependent st e = true
              · rw [if_pos hdep]
                refine ih rest (e :: waitPri) st hrest2 ?_ hinv
                intro x hx
                cases hx with
                | head => exact he
                | tail _ hx2 => exact hwait x hx2
              · rw [if_neg hdep]
                have hframe := testForBlock_frame env st e
                have hinv2 : stInv pool (testForBlock env st e).1 := by
                  obtain ⟨f1, f2, f3⟩ := hframe
                  obtain ⟨i1, i2, i3, i4⟩ := hinv
                  rw [stInv, f1, f2, f3]
                  exact ⟨i1, i2, i3, i4⟩
                have hpar : ∀ p ∈ e.parents, p ∈ (testForBlock env st e).1.inBlock := by
                  rw [hframe.1]
                  exact (isStillDependent_false_iff st e).mp (Bool.not_eq_true _ ▸ hdep)
                by_cases hok : (testForBlock env st e).2 = true
                · rw [if_pos hok]
                  have hinv3 : stInv pool (addToBlock (testForBlock env st e).1 e) :=
                    stInv_addToBlock hinv2 he hpar
                  by_cases hstop : (addToBlock (testForBlock env st e).1 e).nBlockSize ≥
                      prioSize ∨ (!env.allowFree e.priorityKey) = true
                  · rw [if_pos (by
                      rcases hstop with h | h
                      · simp [h]
                      · simp [h])]
                    exact hinv3
                  · rw [if_neg (by
                      intro hc
                      rw [Bool.or_eq_true] at hc
                      rcases hc with h | h
                      · exact hstop (Or.inl (by simpa using h))
                      · exact hstop (Or.inr h))]
                    refine ih _ _ _ ?_ ?_ hinv3
                    · intro x hx
                      rw [List.mem_append] at hx
                      rcases hx with hx | hx
                      · exact hrest2 x hx
                      · exact hwait x (List.mem_of_mem_filter hx)
                    · intro x hx
                      exact hwait x (List.mem_of_mem_filter hx)
                · rw [if_neg hok]
                  exact ih rest waitPri _ hrest2 hwait hinv2

/-- The score-selector loop preserves the selection invariant. -/
theorem stInv_scoreLoop (env : MinerEnv) {pool : List MemEntry} :
    ∀ (fuel : Nat) (index cleared : List MemEntry) (waitSet : List Nat) (st : BlkState),
      (∀ x ∈ index, x ∈ pool) → (∀ x ∈ cleared, x ∈ pool) → stInv pool st →
      stInv pool (scoreLoop env pool fuel index cleared waitSet st) := by
  intro fuel
  induction fuel with
  | zero => intro index cleared waitSet st _ _ hinv; exact hinv
  | succ fuel ih =>
      intro index cleared waitSet st hidx hclr hinv
      unfold scoreLoop
      by_cases hfin : st.blockFinished = true
      · rw [if_pos hfin]; exact hinv
      · rw [if_neg hfin]
        have hbody : ∀ (e : MemEntry) (index2 cleared2 : List MemEntry),
            e ∈ pool → (∀ x ∈ index2, x ∈ pool) → (∀ x ∈ cleared2, x ∈ pool) →
            stInv pool
              (if st.inBlock.contains e.id = true then
                scoreLoop env pool fuel index2 cleared2 waitSet st
              else if isStillDependent st e = true then
                scoreLoop env pool fuel index2 cleared2 (e.id :: waitSet) st
              else if (testForBlock env st e).2 = true then
                scoreLoop env pool fuel index2
                  (cleared2 ++ pool.filter
                    (fun w => w.parents.contains e.id && waitSet.contains w.id))
                  (waitSet.filter (fun i => !((pool.filter
                    (fun w => w.parents.contains e.id && waitSet.contains w.id)).map
                      MemEntry.id).contains i))
                  (addToBlock (testForBlock env st e).1 e)
              else scoreLoop env pool fuel index2 cleared2 waitSet
                (testForBlock env st e).1) := by
          intro e index2 cleared2 he hidx2 hclr2
          by_cases hskip : st.inBlock.contains e.id = true
          · rw [if_pos hskip]
            exact ih index2 cleared2 waitSet st hidx2 hclr2 hinv
          · rw [if_neg hskip]
            by_cases hdep : isStillDependent st e = true
            · rw [if_pos hdep]
              exact ih index2 cleared2 (e.id :: waitSet) st hidx2 hclr2 hinv
            · rw [if_neg hdep]
              have hframe := testForBlock_frame env st e
              have hinv2 : stInv pool (testForBlock env st e).1 := by
                obtain ⟨f1, f2, f3⟩ := hframe
                obtain ⟨i1, i2, i3, i4⟩ := hinv
                rw [stInv, f1, f2, f3]
                exact ⟨i1, i2, i3, i4⟩
              have hpar : ∀ p ∈ e.parents, p ∈ (testForBlock env st e).1.inBlock := by
                rw [hframe.1]
                exact (isStillDependent_false_iff st e).mp (Bool.not_eq_true _ ▸ hdep)
              by_cases hok : (testForBlock env st e).2 = true
              · rw [if_pos hok]
                refine ih index2 _ _ _ hidx2 ?_ (stInv_addToBlock hinv2 he hpar)
                intro x hx
                rw [List.mem_append] at hx
                rcases hx with hx | hx
                · exact hclr2 x hx
                · exact List.mem_of_mem_filter hx
              · rw [if_neg hok]
                exact ih index2 cleared2 waitSet _ hidx2 hclr2 hinv2
        cases hpop : popMaxBy MemEntry.scoreKey cleared with
        | some ec =>
            obtain ⟨e3, c3⟩ := ec
            obtain ⟨hm, hsub⟩ := popMaxBy_mem MemEntry.scoreKey cleared e3 c3 hpop
            exact hbody e3 index c3 (hclr _ hm) hidx (fun x hx => hclr x (hsub x hx))
        | none =>
            cases index with
            | nil => exact hinv
            | cons ei tl =>
                exact hbody ei tl [] (hidx _ (List.mem_cons_self _ _))
                  (fun x hx => hidx x (List.mem_cons_of_mem _ hx))
                  (fun x hx => by cases hx)

/-- The whole selection phase establishes the invariant from the reset state. -/
theorem stInv_selectTxs (env : MinerEnv) {pool : List MemEntry} (hwf : poolWF pool)
    (fuel : Nat) : stInv pool (selectTxs env pool fuel) := by
  unfold selectTxs addPriorityTxs addPackageTxs addScoreTxs
  have hinit := stInv_initState pool env
  have hpri : stInv pool
      (if min env.nBlockMaxSize env.blockPrioritySize = 0 then initState env
       else priLoop env (min env.nBlockMaxSize env.blockPrioritySize) fuel pool []
         (initState env)) := by
    by_cases h : min env.nBlockMaxSize env.blockPrioritySize = 0
    · rw [if_pos h]; exact hinit
    · rw [if_neg h]
      exact stInv_priLoop env _ fuel pool [] (initState env) (fun x hx => hx)
        (fun x hx => by cases hx) hinit
  by_cases hc : env.miningCPFP = true
  · rw [if_pos hc]
    refine stInv_addPackageTxsLoop env hwf _ _ 0 ?_ hpri
    intro x hx
    rw [mem_sortByKey] at hx
    exact hx
  · rw [if_neg hc]
    refine stInv_scoreLoop env fuel _ [] [] _ ?_ (fun x hx => by cases hx) hpri
    intro x hx
    rw [mem_sortByKey] at hx
    exact hx

/-- On an empty mempool the whole selection phase is a no-op. -/
theorem selectTxs_nil (env : MinerEnv) (fuel : Nat) :
    selectTxs env [] fuel = initState env := by
  unfold selectTxs addPriorityTxs addPackageTxs addScoreTxs
  have hpri : (if min env.nBlockMaxSize env.blockPrioritySize = 0 then initState env
      else priLoop env (min env.nBlockMaxSize env.blockPrioritySize) fuel [] []
        (initState env)) = initState env := by
    by_cases h : min env.nBlockMaxSize env.blockPrioritySize = 0
    · rw [if_pos h]
    · rw [if_neg h]
      cases fuel with
      | zero => rfl
      | succ f =>
          unfold priLoop
          rw [if_neg (by simp [initState])]
          rfl
  rw [hpri]
  by_cases hc : env.miningCPFP = true
  · rw [if_pos hc]
    rfl
  · rw [if_neg hc]
    cases fuel with
    | zero => rfl
    | succ f =>
        unfold scoreLoop
        rw [if_neg (by simp [initState])]
        rfl

/-! ## C2 — no dangling dependencies in the emitted template -/

/-- C2: the emitted template lists exactly the selected entries (in tx-hash
order) after the proof-base, and for every selected transaction each of its
mempool parents is emitted in the same template — the priority and score
selectors never commit an entry while a parent is outside the in-block set,
and the package selector commits an entry only together with its
not-yet-placed unconfirmed ancestors. -/
theorem subblock_parents_emitted (env : MinerEnv) (chain : ChainEnv)
    (pool : List MemEntry) (tips s : List Nat) (fuel clock : Nat) (hwf : poolWF pool) :
    ((createNewSubBlock env chain pool tips s fuel clock).vtxRest =
      (sortByKey MemEntry.id (selectTxs env pool fuel).vtxe).map MemEntry.id) ∧
    (∀ e ∈ (selectTxs env pool fuel).vtxe, ∀ p ∈ e.parents,
      p ∈ (createNewSubBlock env chain pool tips s fuel clock).vtxRest) := by
  refine ⟨rfl, ?_⟩
  intro e he p hp
  have hinv := stInv_selectTxs env hwf fuel
  have hIn : p ∈ (selectTxs env pool fuel).inBlock := hinv.2.2.1 e he p hp
  have hid : p ∈ (selectTxs env pool fuel).vtxe.map MemEntry.id := (hinv.2.1 p).mp hIn
  show p ∈ (sortByKey MemEntry.id (selectTxs env pool fuel).vtxe).map MemEntry.id
  rw [List.mem_map] at hid ⊢
  obtain ⟨a, ha, haid⟩ := hid
  exact ⟨a, mem_sortByKey.mpr ha, haid⟩

/-- Witness for `subblock_parents_emitted`: in the CPFP run over the
parent/child pool the child `entry2` is selected, and its parent (id 1) is
emitted in the same template. -/
theorem subblock_parents_emitted_witness :
    entry2 ∈ (selectTxs envA poolB 3).vtxe ∧
    (1 : Nat) ∈ (createNewSubBlock envA chainA poolB [9] [7] 3 99).vtxRest := by
  refine ⟨by decide, ?_⟩
  exact (subblock_parents_emitted envA chainA poolB [9] [7] 3 99 ⟨by decide, by decide⟩).2
    entry2 (by decide) 1 (by decide)

/-! ## C7 — fee sentinel and the empty mempool -/

/-- C7: in every emitted template `vTxFees[0]` is the negation of the sum of
the remaining fee entries, and on an empty mempool the template carries only
the proof-base with `nFees = 0` and `vTxFees = [0]`. -/
theorem template_fee_sentinel (env : MinerEnv) (chain : ChainEnv) (pool : List MemEntry)
    (tips s : List Nat) (fuel clock : Nat) (hwf : poolWF pool) :
    ((createNewSubBlock env chain pool tips s fuel clock).vTxFees.head? =
      some (-((createNewSubBlock env chain pool tips s fuel clock).vTxFees.tail.sum))) ∧
    (pool = [] →
      (createNewSubBlock env chain pool tips s fuel clock).vTxFees = [0] ∧
      (createNewSubBlock env chain pool tips s fuel clock).vtxRest = [] ∧
      (selectTxs env pool fuel).nFees = 0) := by
  have hvt : (createNewSubBlock env chain pool tips s fuel clock).vTxFees =
      (-(selectTxs env pool fuel).nFees) ::
        (sortByKey MemEntry.id (selectTxs env pool fuel).vtxe).map MemEntry.fee := rfl
  constructor
  · rw [hvt]
    simp only [List.head?_cons, List.tail_cons, Option.some.injEq, neg_inj]
    have hfees := (stInv_selectTxs env hwf fuel).2.2.2
    have hperm : List.Perm
        ((sortByKey MemEntry.id (selectTxs env pool fuel).vtxe).map MemEntry.fee)
        ((selectTxs env pool fuel).vtxe.map MemEntry.fee) :=
      (sortByKey_perm MemEntry.id _).map MemEntry.fee
    rw [hfees, hperm.sum_eq]
  · intro hnil
    subst hnil
    have hsel := selectTxs_nil env fuel
    refine ⟨?_, ?_, ?_⟩
    · rw [hvt, hsel]
      simp [initState, sortByKey]
    · show (sortByKey MemEntry.id (selectTxs env [] fuel).vtxe).map MemEntry.id = []
      rw [hsel]
      rfl
    · rw [hsel]
      rfl

/-- Witness for `template_fee_sentinel`: the parent/child pool and the empty
pool, both under the benign CPFP environment. -/
theorem template_fee_sentinel_witness :
    ((createNewSubBlock envA chainA poolB [9] [7] 3 99).vTxFees.head? =
      some (-((createNewSubBlock envA chainA poolB [9] [7] 3 99).vTxFees.tail.sum))) ∧
    (createNewSubBlock envA chainA [] [9] [7] 3 99).vTxFees = [0] :=
  ⟨(template_fee_sentinel envA chainA poolB [9] [7] 3 99 ⟨by decide, by decide⟩).1,
   ((template_fee_sentinel envA chainA [] [9] [7] 3 99 ⟨by decide, by decide⟩).2 rfl).1⟩
